import Mathlib

/-!
Verification of the FloppyForge core (floppyforge_core.py) against its
natural-language specification.

The embedding is shallow: Python functions become Lean functions, the raw
device and the callbacks become explicit parameters (a stop-callback is a
function from poll index to Bool, the raw write primitive is a function from
call index and buffer length to the number of bytes actually written or an
error), and exceptions become Except / explicit outcome values.  Python
floats are modelled as exact rationals: every value the size-formatting code
manipulates is of the form n / 1024 ^ k, which binary floating point
represents exactly for n below 2 ^ 53, so the model agrees with the source
on all realistic inputs.  Byte values are modelled as Nat.
-/

namespace FloppyForge

/-! ## Module constants (floppyforge_core.py, lines 11-14) -/

def FLOPPY_720K : Nat := 737280
def FLOPPY_1440K : Nat := 1474560
def FLOPPY_2880K : Nat := 2949120
def AMIGA_ADF_880K : Nat := 901120

/-- The size whitelist used by device discovery, as Int because the lsblk
size column is parsed with the Python int constructor. -/
def floppySizes : List Int :=
  [(FLOPPY_720K : Int), (FLOPPY_1440K : Int), (FLOPPY_2880K : Int),
   (AMIGA_ADF_880K : Int)]

/-! ## human_bytes (lines 58-66)

The source formats with the Python fixed-point conversions .0f and .2f,
which round the (here exactly representable) value half to even. -/

/-- Round half to even, the rounding used by the Python fixed-point string
conversion on exactly representable values. -/
def roundHalfEven (q : ℚ) : ℤ :=
  if q - ⌊q⌋ < 1 / 2 then ⌊q⌋
  else if 1 / 2 < q - ⌊q⌋ then ⌊q⌋ + 1
  else if ⌊q⌋ % 2 = 0 then ⌊q⌋ else ⌊q⌋ + 1

/-- Two-digit zero padding of a natural number below 100. -/
def pad2 (m : Nat) : String :=
  if m < 10 then "0" ++ toString m else toString m

/-- The Python conversion .2f on a nonnegative value: two decimals, round
half to even. -/
def formatFixed2 (q : ℚ) : String :=
  let m := (roundHalfEven (q * 100)).toNat
  toString (m / 100) ++ "." ++ pad2 (m % 100)

/-- The Python conversion .0f on a nonnegative value: zero decimals, round
half to even. -/
def formatFixed0 (q : ℚ) : String :=
  toString (roundHalfEven q).toNat

/-- The loop of human_bytes: walk the unit list, dividing by 1024 until the
value drops below 1024 or the last unit is reached.  The source compares u
with the final list entry; since the unit names are pairwise distinct this
is the same as the tail being empty.  The empty-list case is the dead
fallback return after the for loop. -/
def human_bytes_go : List String → ℚ → Nat → String
  | [], _, n => toString n ++ " B"
  | u :: rest, size, n =>
    if size < 1024 ∨ rest = [] then
      (if u = "B" then formatFixed0 size else formatFixed2 size) ++ " " ++ u
    else human_bytes_go rest (size / 1024) n

/-- human_bytes (lines 58-66). -/
def human_bytes (n : Nat) : String :=
  human_bytes_go ["B", "KB", "MB", "GB", "TB"] (n : ℚ) n

/-- Index of the unit human_bytes stops at: the first unit at which the
scaled value is below 1024, capped at TB. -/
def hbUnitIndex (n : Nat) : Nat :=
  if n < 1024 then 0
  else if n < 1024 ^ 2 then 1
  else if n < 1024 ^ 3 then 2
  else if n < 1024 ^ 4 then 3
  else 4

/-- Closed-form description of human_bytes: divide by 1024 across the units
B, KB, MB, GB, TB, stop at the first unit whose scaled value is below 1024
(TB at the latest), format with two decimals above bytes and zero decimals
for bytes. -/
def human_bytes_spec (n : Nat) : String :=
  (if hbUnitIndex n = 0 then toString n
   else formatFixed2 ((n : ℚ) / 1024 ^ hbUnitIndex n)) ++ " " ++
  (["B", "KB", "MB", "GB", "TB"].getD (hbUnitIndex n) "B")

/-- One-decimal fixed formatting, following the claim wording "one decimal
of precision"; round half to even like the Python conversions. -/
def formatFixed1 (q : ℚ) : String :=
  let m := (roundHalfEven (q * 10)).toNat
  toString (m / 10) ++ "." ++ toString (m % 10)

/-- The formatter described by claim C9, read literally: stop at the last
unit whose scaled value still exceeds 1, one decimal of precision for every
unit above bytes, zero decimals for bytes.  The scaled value n / 1024 ^ i
exceeds 1 exactly when 1024 ^ i < n. -/
def claimC9Index (n : Nat) : Nat :=
  if 1024 ^ 4 < n then 4
  else if 1024 ^ 3 < n then 3
  else if 1024 ^ 2 < n then 2
  else if 1024 < n then 1
  else 0

def human_bytes_claimC9 (n : Nat) : String :=
  (if claimC9Index n = 0 then toString n
   else formatFixed1 ((n : ℚ) / 1024 ^ claimC9Index n)) ++ " " ++
  (["B", "KB", "MB", "GB", "TB"].getD (claimC9Index n) "B")

/-! ## String primitives

The Python str methods the core uses (strip, upper, startswith, split,
splitlines) are modelled directly over the character list of a string, with
the whitespace set and ASCII case mapping they use on the inputs at hand. -/

/-- The whitespace characters Python strip and split treat as separators
(ASCII subset; the inputs here are command output and drive letters). -/
def pyIsSpace (c : Char) : Bool :=
  c = ' ' ∨ c = '\t' ∨ c = '\n' ∨ c = '\r' ∨ c = '\x0c' ∨ c = '\x0b'

/-- Python str.strip(): remove leading and trailing whitespace. -/
def pyStrip (s : String) : String :=
  String.mk (((s.data.dropWhile pyIsSpace).reverse.dropWhile pyIsSpace).reverse)

/-- Python str.upper() (ASCII case mapping). -/
def pyUpper (s : String) : String := String.mk (s.data.map Char.toUpper)

/-- Python str.startswith. -/
def pyStartsWith (s pre : String) : Bool := pre.data.isPrefixOf s.data

/-- Split at every character satisfying p, keeping empty pieces. -/
def splitAtPred (p : Char → Bool) : List Char → List Char → List String
  | [], acc => [String.mk acc.reverse]
  | d :: rest, acc =>
    if p d then String.mk acc.reverse :: splitAtPred p rest []
    else splitAtPred p rest (d :: acc)

/-- Python str.splitlines on newline-separated command output (a trailing
empty piece is dropped by the strip-and-filter that always follows). -/
def pySplitLines (s : String) : List String :=
  splitAtPred (fun c => c = '\n') s.data []

/-- Split at every whitespace character, keeping empty pieces; Python
str.split() with no argument is this followed by dropping empty pieces. -/
def pySplitWhite (s : String) : List String := splitAtPred pyIsSpace s.data []

/-! ## Platform detection and device path resolution (lines 68-124) -/

/-- platform_name (lines 68-74): a function of the Python sys.platform
string.  Note the fallthrough: anything that is not Windows or macOS is
reported as linux. -/
def platform_name (sys_platform : String) : String :=
  if pyStartsWith sys_platform "win" then "windows"
  else if sys_platform = "darwin" then "macos"
  else "linux"

/-- drive_device_path_windows (lines 80-82). -/
def drive_device_path_windows (drive : String) : String :=
  "\\\\.\\" ++ drive ++ ":"

/-- A raised Python exception, by origin. -/
inductive PyExn
  | valueError
  | subprocessError
  | plistError
  | attributeError
  | typeError
deriving DecidableEq, Repr

/-- Value of an unsigned decimal digit string. -/
def digitsVal (l : List Char) : Nat :=
  l.foldl (fun n c => n * 10 + (c.toNat - 48)) 0

/-- The Python int constructor on a string: optional surrounding whitespace,
optional sign, at least one decimal digit; anything else raises ValueError.
(Python additionally accepts underscore group separators; that difference is
immaterial here because every call site catches the exception.) -/
def pyInt (s : String) : Except PyExn Int :=
  match (pyStrip s).data with
  | '-' :: d =>
    if d ≠ [] ∧ d.all Char.isDigit then Except.ok (-(digitsVal d : Int))
    else Except.error PyExn.valueError
  | '+' :: d =>
    if d ≠ [] ∧ d.all Char.isDigit then Except.ok (digitsVal d : Int)
    else Except.error PyExn.valueError
  | d =>
    if d ≠ [] ∧ d.all Char.isDigit then Except.ok (digitsVal d : Int)
    else Except.error PyExn.valueError

/-! ## Device discovery (lines 443-495)

The lsblk / diskutil invocation is modelled by its outcome: either the
captured output, or the exception the subprocess call raised.  The body of
each discovery function is embedded with explicit exception values so that
the no-raise behaviour is a theorem, not an artifact. -/

/-- The body of the per-line handling inside
_linux_find_floppy_sized_block_device (lines 457-476): split the line on
whitespace, require five columns, parse SIZE, RM and RO with int inside a
try/except whose handler continues (hence toOption), require a removable
writable disk whose size is whitelisted. -/
def linuxLineDevice (ln : String) : Option String :=
  let parts := (pySplitWhite ln).filter (fun p => p ≠ "")
  if parts.length < 5 then none
  else
    match parts[0]?, parts[1]?, parts[2]?, parts[3]?, parts[4]? with
    | some name, some size_s, some rm_s, some typ, some ro_s =>
      match (pyInt size_s).toOption, (pyInt rm_s).toOption, (pyInt ro_s).toOption with
      | some size, some rm, some ro =>
        if typ ≠ "disk" ∨ rm ≠ 1 ∨ ro ≠ 0 then none
        else if floppySizes.contains size then some ("/dev/" ++ name)
        else none
      | _, _, _ => none
    | _, _, _, _, _ => none

/-- _linux_find_floppy_sized_block_device (lines 443-476).  The argument is
the outcome of the lsblk subprocess call; a raised exception there is
caught and turned into None.  The result is ok r where r is the returned
optional device path; an error result would model an escaping exception. -/
def linux_find_floppy_sized_block_device (cmd : Except PyExn String) :
    Except PyExn (Option String) :=
  match cmd with
  | Except.error _ => Except.ok none
  | Except.ok out =>
    let lines := ((pySplitLines out).map pyStrip).filter (fun l => l ≠ "")
    if lines.length < 2 then Except.ok none
    else Except.ok (lines.tail.findSome? linuxLineDevice)

/-- A value plistlib.loads can return: a dictionary with string keys, an
array, a string, an integer, a boolean, a bytes object, or another leaf
(float, datetime, UID), the latter carrying only its Python truthiness. -/
inductive Plist
  | dict (entries : List (String × Plist))
  | array (items : List Plist)
  | str (s : String)
  | int (n : Int)
  | bool (b : Bool)
  | bytes (bs : List Nat)
  | other (isTruthy : Bool)

/-- Python truthiness of a plist value (empty containers, the empty string,
zero and False are falsy). -/
def Plist.truthy : Plist → Bool
  | Plist.dict es => !es.isEmpty
  | Plist.array xs => !xs.isEmpty
  | Plist.str s => decide (s ≠ "")
  | Plist.int n => decide (n ≠ 0)
  | Plist.bool b => b
  | Plist.bytes bs => !bs.isEmpty
  | Plist.other t => t

/-- The value of a plist entry as a Python int, when isinstance(v, int)
holds: an integer, or a boolean (bool is a subclass of int, True == 1 and
False == 0). -/
def Plist.intVal? : Plist → Option Int
  | Plist.int n => some n
  | Plist.bool b => some (if b then 1 else 0)
  | _ => none

/-- The text the f-string interpolation produces for a value: the string
itself for str, the decimal form for int, True or False for bool.  The
textual form of composite and opaque leaves is not modelled further: it
only affects the returned path text, never control flow or raising. -/
def Plist.reprStr : Plist → String
  | Plist.str s => s
  | Plist.int n => toString n
  | Plist.bool b => if b then "True" else "False"
  | _ => "<unmodeled-repr>"

/-- Python data.get(key, default): a dictionary lookup with a default, or
an uncaught AttributeError when the receiver is not a dictionary. -/
def plistGetDefault (d : Plist) (key : String) (dflt : Plist) :
    Except PyExn Plist :=
  match d with
  | Plist.dict es => Except.ok ((es.lookup key).getD dflt)
  | _ => Except.error PyExn.attributeError

/-- The pure part of the per-disk handling inside
_mac_find_floppy_sized_disk (lines 486-493), for a dictionary entry: skip
it when DeviceIdentifier is missing or falsy (an empty string is falsy) or
Size is missing or not an int; return the raw device path when the size is
whitelisted. -/
def macEntryDevice (es : List (String × Plist)) : Option String :=
  match es.lookup "DeviceIdentifier" with
  | none => none
  | some idv =>
    if idv.truthy = false then none
    else
      match (es.lookup "Size").bind Plist.intVal? with
      | none => none
      | some n =>
        if floppySizes.contains n then some ("/dev/r" ++ idv.reprStr)
        else none

/-- One iteration of the for-disk loop body: disk.get on a non-dictionary
element raises an uncaught AttributeError; on a dictionary the pure entry
handling applies. -/
def macDiskStep (disk : Plist) : Except PyExn (Option String) :=
  match disk with
  | Plist.dict es => Except.ok (macEntryDevice es)
  | _ => Except.error PyExn.attributeError

/-- The for-disk loop over a list of elements: stop at the first device
found, propagate a raised exception, return None when exhausted. -/
def macScanList : List Plist → Except PyExn (Option String)
  | [] => Except.ok none
  | disk :: rest =>
    match macDiskStep disk with
    | Except.error e => Except.error e
    | Except.ok (some dev) => Except.ok (some dev)
    | Except.ok none => macScanList rest

/-- Python iteration over the AllDisksAndPartitions value: an array yields
its items, a string its one-character substrings, a bytes object its byte
values, a dictionary its keys; an int, a bool or another leaf is not
iterable and raises an uncaught TypeError. -/
def macIter (v : Plist) : Except PyExn (Option String) :=
  match v with
  | Plist.array items => macScanList items
  | Plist.str s => macScanList (s.data.map (fun c => Plist.str (String.mk [c])))
  | Plist.bytes bs => macScanList (bs.map Plist.int)
  | Plist.dict es => macScanList (es.map (fun kv => Plist.str kv.1))
  | _ => Except.error PyExn.typeError

/-- _mac_find_floppy_sized_disk (lines 478-495).  The argument is the
outcome of running diskutil and parsing its output with plistlib.loads:
the parsed plist value, or the exception raised there.  Only that
invocation and parse are inside the try, so only those exceptions are
caught and turned into None; the subsequent data.get, iteration and
disk.get run after the except and their failures propagate uncaught. -/
def mac_find_floppy_sized_disk (parsed : Except PyExn Plist) :
    Except PyExn (Option String) :=
  match parsed with
  | Except.error _ => Except.ok none
  | Except.ok data =>
    match plistGetDefault data "AllDisksAndPartitions" (Plist.array []) with
    | Except.error e => Except.error e
    | Except.ok v => macIter v

/-- The failure raised by resolve_device_path, by message, plus a
constructor for an exception escaping from device discovery (shown
unreachable by the discovery theorems). -/
inductive ResolveErr
  | deviceNotFoundLinux
  | deviceNotFoundMac
  | unsupportedPlatform
  | raisedFrom (e : PyExn)
deriving DecidableEq, Repr

/-- The environment resolve_device_path consults: the platform string, the
os.path.exists predicate, and the outcomes of the two discovery inputs. -/
structure ResolveEnv where
  sys_platform : String
  pathExists : String → Bool
  lsblkOutput : Except PyExn String
  diskutilPlist : Except PyExn Plist

/-- resolve_device_path (lines 94-124). -/
def resolve_device_path (env : ResolveEnv) (drive_letter : String) :
    Except ResolveErr String :=
  let d := pyStrip (pyUpper drive_letter)
  let plat := platform_name env.sys_platform
  if plat = "windows" then Except.ok (drive_device_path_windows d)
  else if plat = "linux" then
    let candidates :=
      if d = "A" then ["/dev/fd0", "/dev/floppy/0"]
      else ["/dev/fd1", "/dev/floppy/1"]
    match candidates.find? env.pathExists with
    | some dev => Except.ok dev
    | none =>
      match linux_find_floppy_sized_block_device env.lsblkOutput with
      | Except.ok (some dev) => Except.ok dev
      | Except.ok none => Except.error ResolveErr.deviceNotFoundLinux
      | Except.error e => Except.error (ResolveErr.raisedFrom e)
  else if plat = "macos" then
    match mac_find_floppy_sized_disk env.diskutilPlist with
    | Except.ok (some dev) => Except.ok dev
    | Except.ok none => Except.error ResolveErr.deviceNotFoundMac
    | Except.error e => Except.error (ResolveErr.raisedFrom e)
  else Except.error ResolveErr.unsupportedPlatform

/-! ## The Windows flush filter (lines 269-276) -/

/-- The _flush step as a function of the FlushFileBuffers outcome: none
models success, some err models failure with last error err.  WinError 1
(INVALID_FUNCTION) is swallowed; any other failure raises OSError carrying
the code. -/
def winFlush (flushRes : Option Nat) : Except Nat Unit :=
  match flushRes with
  | none => Except.ok ()
  | some err => if err = 1 then Except.ok () else Except.error err

/-! ## The transfer loops (lines 284-439)

An execution is determinized by an environment: the k-th stop_cb poll
returns stop k, and the k-th raw write of an n-byte buffer returns the
number of bytes the device accepted (possibly fewer than n) or an error.
A run is summarized by the bytes committed to the device in order, the
progress_cb call list, the device-level event trace, the final value of
written_total, and the outcome. -/

/-- Device-level events of one operation, in order. -/
inductive Ev
  | openEv
  | lockEv
  | dismountEv
  | unmountEv
  | writeEv (n : Nat)
  | flushEv
  | syncEv
  | unlockEv
  | closeEv
deriving DecidableEq, Repr

/-- How one operation ended. -/
inductive Outcome
  | ok
  | interrupted
  | writeFailed
  | openFailed
  | lockFailed
  | dismountFailed
  | flushFailed (code : Nat)
  | syncFailed
deriving DecidableEq, Repr

/-- Summary of one run. -/
structure RunRes where
  committed : List Nat
  progress : List (Nat × Nat)
  events : List Ev
  written : Nat
  outcome : Outcome
deriving DecidableEq, Repr

/-- The chunk loop shared verbatim by _write_windows (lines 300-309) and
_write_unix (lines 392-401): poll stop_cb, raise on true; read the next
chunk of the image, break when it is empty; issue the raw write, add the
returned count to written_total, call progress_cb(written_total, total).
Fields of the result are the contributions from this point on; writeEv
records the count the raw write returned, and committed collects the
bytes the device actually accepted (the written head of each buffer). -/
def writeChunkLoop (stop : Nat → Bool) (wr : Nat → Nat → Except Unit Nat)
    (C total k written : Nat) (remaining : List Nat) : RunRes :=
  if stop k then ⟨[], [], [], written, Outcome.interrupted⟩
  else if hbuf : remaining.take C = [] then ⟨[], [], [], written, Outcome.ok⟩
  else
    match wr k (remaining.take C).length with
    | Except.error _ => ⟨[], [], [], written, Outcome.writeFailed⟩
    | Except.ok w =>
      let rest := writeChunkLoop stop wr C total (k + 1) (written + w) (remaining.drop C)
      ⟨(remaining.take C).take w ++ rest.committed,
       (written + w, total) :: rest.progress,
       Ev.writeEv w :: rest.events,
       rest.written, rest.outcome⟩
termination_by remaining.length
decreasing_by
  have h1 : C ≠ 0 := by intro h; exact hbuf (by simp [h])
  have h2 : remaining ≠ [] := by intro h; exact hbuf (by simp [h])
  have h3 : 0 < remaining.length := List.length_pos.mpr h2
  simp only [List.length_drop]
  omega

/-- The zero-fill loop shared verbatim by _format_windows (lines 335-344)
and _format_unix (lines 422-432): while written_total is below size, poll
stop_cb, build a zero buffer of min(chunk, remaining) bytes, issue the raw
write, add the returned count, call progress_cb(written_total, size).  The
fuel argument bounds the iteration count; none models nontermination (the
source loops forever on a device that keeps accepting zero bytes). -/
def formatLoop (stop : Nat → Bool) (wr : Nat → Nat → Except Unit Nat)
    (C size : Nat) : Nat → Nat → Nat → Option RunRes
  | 0, _, _ => none
  | fuel + 1, k, written =>
    if written < size then
      if stop k then some ⟨[], [], [], written, Outcome.interrupted⟩
      else
        match wr k (min C (size - written)) with
        | Except.error _ => some ⟨[], [], [], written, Outcome.writeFailed⟩
        | Except.ok w =>
          match formatLoop stop wr C size fuel (k + 1) (written + w) with
          | none => none
          | some rest =>
            some ⟨(List.replicate (min C (size - written)) 0).take w ++ rest.committed,
                  (written + w, size) :: rest.progress,
                  Ev.writeEv w :: rest.events,
                  rest.written, rest.outcome⟩
    else some ⟨[], [], [], written, Outcome.ok⟩

/-- The Windows backend environment: whether CreateFileW, the lock ioctl and
the dismount ioctl succeed, the WriteFile behaviour, the FlushFileBuffers
outcome (none is success, some err is failure with code err), and the
stop_cb poll sequence.  A failing unlock ioctl is swallowed by the source,
so it does not need a flag: the attempt is the observable event. -/
structure WinEnv where
  openOk : Bool
  lockOk : Bool
  dismountOk : Bool
  writeRes : Nat → Nat → Except Unit Nat
  flushRes : Option Nat
  stop : Nat → Bool

/-- _write_windows (lines 284-320): open the handle (failure propagates
before any teardown), lock and dismount the volume (failure raises inside
the try, so unlock and close still run), run the chunk loop, flush with the
WinError 1 filter, and in the finally block attempt unlock and then close
unconditionally. -/
def write_windows (env : WinEnv) (image : List Nat) (C total : Nat) : RunRes :=
  if ¬ env.openOk then ⟨[], [], [], 0, Outcome.openFailed⟩
  else if ¬ env.lockOk then
    ⟨[], [], [Ev.openEv, Ev.unlockEv, Ev.closeEv], 0, Outcome.lockFailed⟩
  else if ¬ env.dismountOk then
    ⟨[], [], [Ev.openEv, Ev.lockEv, Ev.unlockEv, Ev.closeEv], 0, Outcome.dismountFailed⟩
  else
    let r := writeChunkLoop env.stop env.writeRes C total 0 0 image
    let hd := [Ev.openEv, Ev.lockEv, Ev.dismountEv]
    match r.outcome with
    | Outcome.ok =>
      match winFlush env.flushRes with
      | Except.ok _ =>
        ⟨r.committed, r.progress, hd ++ r.events ++ [Ev.flushEv, Ev.unlockEv, Ev.closeEv],
         r.written, Outcome.ok⟩
      | Except.error e =>
        ⟨r.committed, r.progress, hd ++ r.events ++ [Ev.unlockEv, Ev.closeEv],
         r.written, Outcome.flushFailed e⟩
    | st =>
      ⟨r.committed, r.progress, hd ++ r.events ++ [Ev.unlockEv, Ev.closeEv],
       r.written, st⟩

/-- _format_windows (lines 322-355): same acquisition, zero-fill loop and
teardown as _write_windows. -/
def format_windows (env : WinEnv) (size C fuel : Nat) : Option RunRes :=
  if ¬ env.openOk then some ⟨[], [], [], 0, Outcome.openFailed⟩
  else if ¬ env.lockOk then
    some ⟨[], [], [Ev.openEv, Ev.unlockEv, Ev.closeEv], 0, Outcome.lockFailed⟩
  else if ¬ env.dismountOk then
    some ⟨[], [], [Ev.openEv, Ev.lockEv, Ev.unlockEv, Ev.closeEv], 0, Outcome.dismountFailed⟩
  else
    match formatLoop env.stop env.writeRes C size fuel 0 0 with
    | none => none
    | some r =>
      let hd := [Ev.openEv, Ev.lockEv, Ev.dismountEv]
      match r.outcome with
      | Outcome.ok =>
        match winFlush env.flushRes with
        | Except.ok _ =>
          some ⟨r.committed, r.progress, hd ++ r.events ++ [Ev.flushEv, Ev.unlockEv, Ev.closeEv],
                r.written, Outcome.ok⟩
        | Except.error e =>
          some ⟨r.committed, r.progress, hd ++ r.events ++ [Ev.unlockEv, Ev.closeEv],
                r.written, Outcome.flushFailed e⟩
      | st =>
        some ⟨r.committed, r.progress, hd ++ r.events ++ [Ev.unlockEv, Ev.closeEv],
              r.written, st⟩

/-- The Unix backend environment: whether os.open and os.fsync succeed, the
os.write behaviour, and the stop_cb poll sequence.  The best-effort unmount
swallows every failure, so only the attempt is recorded. -/
structure UnixEnv where
  openOk : Bool
  writeRes : Nat → Nat → Except Unit Nat
  syncOk : Bool
  stop : Nat → Bool

/-- _write_unix (lines 377-408): best-effort unmount, os.open (a failure
there propagates before the try, so no close happens), the chunk loop,
os.fsync on success, and close in the finally block. -/
def write_unix (env : UnixEnv) (image : List Nat) (C total : Nat) : RunRes :=
  if ¬ env.openOk then ⟨[], [], [Ev.unmountEv], 0, Outcome.openFailed⟩
  else
    let r := writeChunkLoop env.stop env.writeRes C total 0 0 image
    let hd := [Ev.unmountEv, Ev.openEv]
    match r.outcome with
    | Outcome.ok =>
      if env.syncOk then
        ⟨r.committed, r.progress, hd ++ r.events ++ [Ev.syncEv, Ev.closeEv],
         r.written, Outcome.ok⟩
      else
        ⟨r.committed, r.progress, hd ++ r.events ++ [Ev.closeEv],
         r.written, Outcome.syncFailed⟩
    | st =>
      ⟨r.committed, r.progress, hd ++ r.events ++ [Ev.closeEv], r.written, st⟩

/-- _format_unix (lines 410-439): same shape as _write_unix with the
zero-fill loop. -/
def format_unix (env : UnixEnv) (size C fuel : Nat) : Option RunRes :=
  if ¬ env.openOk then some ⟨[], [], [Ev.unmountEv], 0, Outcome.openFailed⟩
  else
    match formatLoop env.stop env.writeRes C size fuel 0 0 with
    | none => none
    | some r =>
      let hd := [Ev.unmountEv, Ev.openEv]
      match r.outcome with
      | Outcome.ok =>
        if env.syncOk then
          some ⟨r.committed, r.progress, hd ++ r.events ++ [Ev.syncEv, Ev.closeEv],
                r.written, Outcome.ok⟩
        else
          some ⟨r.committed, r.progress, hd ++ r.events ++ [Ev.closeEv],
                r.written, Outcome.syncFailed⟩
      | st =>
        some ⟨r.committed, r.progress, hd ++ r.events ++ [Ev.closeEv], r.written, st⟩

/-- A raw write that accepts every byte offered, the nominal device. -/
def fullWrite : Nat → Nat → Except Unit Nat := fun _ n => Except.ok n

/-- A stop callback that never requests cancellation. -/
def neverStop : Nat → Bool := fun _ => false

/-- The nominal Unix environment: everything succeeds, no cancellation. -/
def smoothUnixEnv : UnixEnv := ⟨true, fullWrite, true, neverStop⟩

/-- The nominal Windows environment: everything succeeds, no cancellation. -/
def smoothWinEnv : WinEnv := ⟨true, true, true, fullWrite, none, neverStop⟩

/-! ## Chunk decomposition and closed-form descriptions

The chunk loop reads successive f.read(chunk_size) buffers; chunksOf C l is
the resulting sequence of buffers (empty when C = 0, because f.read(0)
returns an empty buffer immediately).  shortWritten, shortCommitted,
shortProgress and shortEvents describe, chunk by chunk, what a run of the
chunk loop produces when no stop is requested and the raw write of the k-th
chunk of length n commits f k n bytes; chunkSizesZ and zfProgress do the
same for the zero-fill loop. -/

/-- The successive chunks the loop reads from an image. -/
def chunksOf (C : Nat) (l : List Nat) : List (List Nat) :=
  match l with
  | [] => []
  | a :: t =>
    if h : C = 0 then []
    else (a :: t).take C :: chunksOf C ((a :: t).drop C)
termination_by l.length
decreasing_by simp only [List.length_drop, List.length_cons]; omega

def shortWritten (f : Nat → Nat → Nat) : Nat → List (List Nat) → Nat
  | _, [] => 0
  | k, c :: cs => f k c.length + shortWritten f (k + 1) cs

def shortCommitted (f : Nat → Nat → Nat) : Nat → List (List Nat) → List Nat
  | _, [] => []
  | k, c :: cs => c.take (f k c.length) ++ shortCommitted f (k + 1) cs

def shortProgress (f : Nat → Nat → Nat) (total : Nat) :
    Nat → Nat → List (List Nat) → List (Nat × Nat)
  | _, _, [] => []
  | k, w, c :: cs =>
    (w + f k c.length, total) :: shortProgress f total (k + 1) (w + f k c.length) cs

def shortEvents (f : Nat → Nat → Nat) : Nat → List (List Nat) → List Ev
  | _, [] => []
  | k, c :: cs => Ev.writeEv (f k c.length) :: shortEvents f (k + 1) cs

/-- The sizes of the successive zero buffers the format loop issues for a
remaining byte count: min C remaining, until nothing remains. -/
def chunkSizesZ (C : Nat) (rem : Nat) : List Nat :=
  if h : C = 0 ∨ rem = 0 then []
  else min C rem :: chunkSizesZ C (rem - C)
termination_by rem
decreasing_by omega

/-- The progress trace of the zero-fill loop, given the buffer sizes. -/
def zfProgress (size : Nat) : Nat → List Nat → List (Nat × Nat)
  | _, [] => []
  | w, n :: ns => (w + n, size) :: zfProgress size (w + n) ns

/-- The size recorded by a raw write event. -/
def evWriteSize : Ev → Option Nat
  | Ev.writeEv n => some n
  | _ => none

/-- The environment of the C7 counterexample: a platform that is neither
Windows nor Linux nor macOS, with no device path present and a failing
inventory command. -/
def otherPlatformEnv : ResolveEnv :=
  ⟨"freebsd", fun _ => false, Except.error PyExn.subprocessError,
   Except.error PyExn.plistError⟩

theorem chunksOf_nil (C : Nat) : chunksOf C [] = [] := by
  unfold chunksOf
  rfl

theorem chunksOf_zero (l : List Nat) : chunksOf 0 l = [] := by
  unfold chunksOf
  cases l <;> simp

theorem chunksOf_cons (C : Nat) (a : Nat) (t : List Nat) (h : C ≠ 0) :
    chunksOf C (a :: t) = (a :: t).take C :: chunksOf C ((a :: t).drop C) := by
  conv_lhs => unfold chunksOf
  simp [h]

theorem chunksOf_cons_of_ne (C : Nat) (l : List Nat) (hC : C ≠ 0) (hl : l ≠ []) :
    chunksOf C l = l.take C :: chunksOf C (l.drop C) := by
  cases l with
  | nil => exact absurd rfl hl
  | cons a t => exact chunksOf_cons C a t hC

theorem chunksOf_eq_nil_iff (C : Nat) (l : List Nat) :
    chunksOf C l = [] ↔ C = 0 ∨ l = [] := by
  constructor
  · intro h
    by_cases hC : C = 0
    · exact Or.inl hC
    · cases l with
      | nil => exact Or.inr rfl
      | cons a t => rw [chunksOf_cons C a t hC] at h; exact absurd h (by simp)
  · intro h
    rcases h with h | h
    · subst h; exact chunksOf_zero l
    · subst h; exact chunksOf_nil C

theorem chunksOf_flatten (C : Nat) (hC : 0 < C) :
    ∀ (N : Nat) (l : List Nat), l.length ≤ N → (chunksOf C l).flatten = l := by
  intro N
  induction N with
  | zero =>
    intro l hl
    have : l = [] := List.eq_nil_of_length_eq_zero (Nat.le_zero.mp hl)
    subst this
    simp [chunksOf_nil]
  | succ N ih =>
    intro l hl
    cases l with
    | nil => simp [chunksOf_nil]
    | cons a t =>
      rw [chunksOf_cons C a t (by omega)]
      simp only [List.flatten_cons]
      simp only [List.length_cons] at hl
      rw [ih ((a :: t).drop C)
        (by simp only [List.length_drop, List.length_cons]; omega)]
      exact List.take_append_drop C (a :: t)

theorem chunksOf_ne_nil (C : Nat) :
    ∀ (N : Nat) (l : List Nat), l.length ≤ N → ∀ c ∈ chunksOf C l, c ≠ [] := by
  intro N
  induction N with
  | zero =>
    intro l hl c hc
    have : l = [] := List.eq_nil_of_length_eq_zero (Nat.le_zero.mp hl)
    subst this
    simp [chunksOf_nil] at hc
  | succ N ih =>
    intro l hl c hc
    cases l with
    | nil => simp [chunksOf_nil] at hc
    | cons a t =>
      by_cases hC : C = 0
      · subst hC; simp [chunksOf_zero] at hc
      · rw [chunksOf_cons C a t hC] at hc
        simp only [List.length_cons] at hl
        rcases List.mem_cons.mp hc with h | h
        · subst h
          simp [List.take_eq_nil_iff]
          omega
        · exact ih ((a :: t).drop C)
            (by simp only [List.length_drop, List.length_cons]; omega) c h

theorem chunksOf_sum_length (C : Nat) (hC : 0 < C) (l : List Nat) :
    ((chunksOf C l).map List.length).sum = l.length := by
  have h := chunksOf_flatten C hC l.length l le_rfl
  calc ((chunksOf C l).map List.length).sum
      = (chunksOf C l).flatten.length := (List.length_flatten _).symm
    _ = l.length := by rw [h]

/-- Closed form of the chunk loop when cancellation is never requested and
the k-th raw write of an n-byte buffer commits f k n bytes without error. -/
theorem writeChunkLoop_noStop (f : Nat → Nat → Nat) (C total : Nat) (hC : 0 < C) :
    ∀ (N : Nat) (rem : List Nat), rem.length ≤ N → ∀ (k w : Nat),
      writeChunkLoop neverStop (fun i n => Except.ok (f i n)) C total k w rem =
        ⟨shortCommitted f k (chunksOf C rem),
         shortProgress f total k w (chunksOf C rem),
         shortEvents f k (chunksOf C rem),
         w + shortWritten f k (chunksOf C rem),
         Outcome.ok⟩ := by
  intro N
  induction N with
  | zero =>
    intro rem hlen k w
    have h0 : rem = [] := List.eq_nil_of_length_eq_zero (Nat.le_zero.mp hlen)
    subst h0
    unfold writeChunkLoop
    simp [neverStop, chunksOf_nil, shortCommitted, shortProgress, shortEvents, shortWritten]
  | succ N ih =>
    intro rem hlen k w
    cases rem with
    | nil =>
      unfold writeChunkLoop
      simp [neverStop, chunksOf_nil, shortCommitted, shortProgress, shortEvents, shortWritten]
    | cons a t =>
      have hC0 : C ≠ 0 := by omega
      have hbuf : ¬((a :: t).take C = []) := by
        simp [List.take_eq_nil_iff]
        exact hC0
      rw [chunksOf_cons C a t hC0]
      unfold writeChunkLoop
      rw [if_neg (by simp [neverStop]), dif_neg hbuf]
      dsimp only
      simp only [List.length_cons] at hlen
      rw [ih ((a :: t).drop C)
        (by simp only [List.length_drop, List.length_cons]; omega) (k + 1)
        (w + f k ((a :: t).take C).length)]
      simp [shortCommitted, shortProgress, shortEvents, shortWritten, Nat.add_assoc]

theorem shortProgress_snd (f : Nat → Nat → Nat) (total : Nat) :
    ∀ (cs : List (List Nat)) (k w : Nat) (p : Nat × Nat),
      p ∈ shortProgress f total k w cs → p.2 = total := by
  intro cs
  induction cs with
  | nil => intro k w p hp; simp [shortProgress] at hp
  | cons c cs ih =>
    intro k w p hp
    rcases List.mem_cons.mp hp with h | h
    · subst h; rfl
    · exact ih (k + 1) (w + f k c.length) p h

theorem shortProgress_fst_bounds (f : Nat → Nat → Nat) (total : Nat) :
    ∀ (cs : List (List Nat)) (k w : Nat) (p : Nat × Nat),
      p ∈ shortProgress f total k w cs →
      w ≤ p.1 ∧ p.1 ≤ w + shortWritten f k cs := by
  intro cs
  induction cs with
  | nil => intro k w p hp; simp [shortProgress] at hp
  | cons c cs ih =>
    intro k w p hp
    simp only [shortWritten]
    rcases List.mem_cons.mp hp with h | h
    · subst h; simp
    · have := ih (k + 1) (w + f k c.length) p h
      omega

theorem shortProgress_fst_pos (total : Nat) :
    ∀ (cs : List (List Nat)) (k w : Nat), (∀ c ∈ cs, c ≠ []) →
      ∀ p ∈ shortProgress (fun _ n => n) total k w cs, w < p.1 := by
  intro cs
  induction cs with
  | nil => intro k w _ p hp; simp [shortProgress] at hp
  | cons c cs ih =>
    intro k w hne p hp
    have hc : c ≠ [] := hne c (List.mem_cons_self c cs)
    have hlen : 0 < c.length := List.length_pos.mpr hc
    rcases List.mem_cons.mp hp with h | h
    · subst h; simp; omega
    · have := ih (k + 1) (w + c.length)
        (fun d hd => hne d (List.mem_cons_of_mem c hd)) p h
      omega

theorem shortProgress_chain (f : Nat → Nat → Nat) (total : Nat) :
    ∀ (cs : List (List Nat)) (k w : Nat),
      List.Chain' (fun a b => a.1 ≤ b.1) (shortProgress f total k w cs) := by
  intro cs
  induction cs with
  | nil => intro k w; simp [shortProgress]
  | cons c cs ih =>
    intro k w
    simp only [shortProgress]
    rw [List.chain'_cons']
    refine ⟨?_, ih (k + 1) (w + f k c.length)⟩
    intro b hb
    have hmem : b ∈ shortProgress f total (k + 1) (w + f k c.length) cs :=
      List.mem_of_mem_head? hb
    exact (shortProgress_fst_bounds f total cs (k + 1) (w + f k c.length) b hmem).1

theorem shortProgress_getLast (f : Nat → Nat → Nat) (total : Nat) :
    ∀ (cs : List (List Nat)) (k w : Nat), cs ≠ [] →
      (shortProgress f total k w cs).getLast? =
        some (w + shortWritten f k cs, total) := by
  intro cs
  induction cs with
  | nil => intro k w h; exact absurd rfl h
  | cons c cs ih =>
    intro k w _
    cases cs with
    | nil => simp [shortProgress, shortWritten]
    | cons d ds =>
      have h1 := ih (k + 1) (w + f k c.length) (by simp)
      simp only [shortProgress] at h1 ⊢
      rw [List.getLast?_cons_cons, h1]
      simp [shortWritten, Nat.add_assoc]

theorem shortProgress_length (f : Nat → Nat → Nat) (total : Nat) :
    ∀ (cs : List (List Nat)) (k w : Nat),
      (shortProgress f total k w cs).length = cs.length := by
  intro cs
  induction cs with
  | nil => intro k w; simp [shortProgress]
  | cons c cs ih =>
    intro k w
    simp [shortProgress, ih (k + 1) (w + f k c.length)]

theorem shortWritten_full :
    ∀ (cs : List (List Nat)) (k : Nat),
      shortWritten (fun _ n => n) k cs = (cs.map List.length).sum := by
  intro cs
  induction cs with
  | nil => intro k; simp [shortWritten]
  | cons c cs ih => intro k; simp [shortWritten, ih (k + 1)]

theorem shortCommitted_full :
    ∀ (cs : List (List Nat)) (k : Nat),
      shortCommitted (fun _ n => n) k cs = cs.flatten := by
  intro cs
  induction cs with
  | nil => intro k; simp [shortCommitted]
  | cons c cs ih => intro k; simp [shortCommitted, List.take_length, ih (k + 1)]

theorem shortWritten_le (f : Nat → Nat → Nat) (hf : ∀ i n, f i n ≤ n) :
    ∀ (cs : List (List Nat)) (k : Nat),
      shortWritten f k cs ≤ (cs.map List.length).sum := by
  intro cs
  induction cs with
  | nil => intro k; simp [shortWritten]
  | cons c cs ih =>
    intro k
    simp only [shortWritten, List.map_cons, List.sum_cons]
    have := hf k c.length
    have := ih (k + 1)
    omega

theorem shortWritten_lt (f : Nat → Nat → Nat) (hf : ∀ i n, f i n ≤ n) :
    ∀ (cs : List (List Nat)) (k : Nat),
      (∃ j c, cs[j]? = some c ∧ f (k + j) c.length < c.length) →
      shortWritten f k cs < (cs.map List.length).sum := by
  intro cs
  induction cs with
  | nil =>
    intro k h
    rcases h with ⟨j, c, hj, _⟩
    simp at hj
  | cons c cs ih =>
    intro k h
    simp only [shortWritten, List.map_cons, List.sum_cons]
    rcases h with ⟨j, d, hj, hlt⟩
    cases j with
    | zero =>
      simp at hj
      subst hj
      simp only [Nat.add_zero] at hlt
      have := shortWritten_le f hf cs (k + 1)
      omega
    | succ j =>
      simp only [List.getElem?_cons_succ] at hj
      have hstep : f ((k + 1) + j) d.length < d.length := by
        have : k + (j + 1) = (k + 1) + j := by omega
        rwa [this] at hlt
      have := ih (k + 1) ⟨j, d, hj, hstep⟩
      have := hf k c.length
      omega

/-- Closed form of the chunk loop when the stop callback first returns true
at its K-th poll, the raw writes up to then committing their full buffers:
the first K chunks are committed and the loop raises the user interrupt. -/
theorem writeChunkLoop_stop (stop : Nat → Bool) (C total : Nat) (hC : 0 < C) :
    ∀ (K : Nat) (rem : List Nat) (k w : Nat),
      (∀ i, i < K → stop (k + i) = false) → stop (k + K) = true →
      K ≤ (chunksOf C rem).length →
      writeChunkLoop stop fullWrite C total k w rem =
        ⟨rem.take (K * C),
         shortProgress (fun _ n => n) total k w ((chunksOf C rem).take K),
         shortEvents (fun _ n => n) k ((chunksOf C rem).take K),
         w + (rem.take (K * C)).length,
         Outcome.interrupted⟩ := by
  intro K
  induction K with
  | zero =>
    intro rem k w _ htrue _
    rw [Nat.add_zero] at htrue
    unfold writeChunkLoop
    rw [if_pos htrue]
    simp [shortProgress, shortEvents]
  | succ K ih =>
    intro rem k w hfalse htrue hK
    have hchne : chunksOf C rem ≠ [] := by
      intro h
      rw [h] at hK
      simp at hK
    have hrem : rem ≠ [] := by
      intro h
      exact hchne ((chunksOf_eq_nil_iff C rem).mpr (Or.inr h))
    have hC0 : C ≠ 0 := by omega
    have hbuf : ¬(rem.take C = []) := by
      simp [List.take_eq_nil_iff]
      exact ⟨hC0, hrem⟩
    rw [chunksOf_cons_of_ne C rem hC0 hrem] at hK ⊢
    unfold writeChunkLoop
    rw [if_neg (by
      have h0 := hfalse 0 (by omega)
      rw [Nat.add_zero] at h0
      simp [h0]), dif_neg hbuf]
    dsimp only [fullWrite]
    rw [ih (rem.drop C) (k + 1) (w + (rem.take C).length)
      (by intro i hi
          have := hfalse (i + 1) (by omega)
          rwa [show k + (i + 1) = k + 1 + i by omega] at this)
      (by rwa [show k + 1 + K = k + (K + 1) by omega])
      (by simp only [List.length_cons] at hK; omega)]
    have hsplit : rem.take ((K + 1) * C) = rem.take C ++ (rem.drop C).take (K * C) := by
      rw [show (K + 1) * C = C + K * C by ring]
      exact List.take_add rem C (K * C)
    rw [hsplit]
    simp [shortProgress, shortEvents, List.take_length, List.length_append, Nat.add_assoc]

/-- Every event the chunk loop itself produces is a raw write event: the
acquisition and teardown events come only from the enclosing backend. -/
theorem writeChunkLoop_events (stop : Nat → Bool) (wr : Nat → Nat → Except Unit Nat)
    (C total : Nat) :
    ∀ (N : Nat) (rem : List Nat), rem.length ≤ N → ∀ (k w : Nat),
      ∀ e ∈ (writeChunkLoop stop wr C total k w rem).events, ∃ n, e = Ev.writeEv n := by
  intro N
  induction N with
  | zero =>
    intro rem hlen k w e he
    have h0 : rem = [] := List.eq_nil_of_length_eq_zero (Nat.le_zero.mp hlen)
    subst h0
    unfold writeChunkLoop at he
    by_cases h : stop k = true <;> simp [h] at he
  | succ N ih =>
    intro rem hlen k w e he
    unfold writeChunkLoop at he
    by_cases h : stop k = true
    · simp [h] at he
    · rw [if_neg (by simp [h])] at he
      by_cases hbuf : rem.take C = []
      · rw [dif_pos hbuf] at he
        simp at he
      · rw [dif_neg hbuf] at he
        have hC0 : C ≠ 0 := by
          intro hc
          exact hbuf (by simp [hc])
        have hrem : rem ≠ [] := by
          intro hr
          exact hbuf (by simp [hr])
        match hw : wr k (rem.take C).length with
        | Except.error _ => rw [hw] at he; simp at he
        | Except.ok n =>
          rw [hw] at he
          dsimp only at he
          rcases List.mem_cons.mp he with h1 | h1
          · exact ⟨n, h1⟩
          · have hlt : (rem.drop C).length ≤ N := by
              have : 0 < rem.length := List.length_pos.mpr hrem
              simp only [List.length_drop]
              omega
            exact ih (rem.drop C) hlt (k + 1) (w + n) e h1

theorem shortCommitted_length (f : Nat → Nat → Nat) (hf : ∀ i n, f i n ≤ n) :
    ∀ (cs : List (List Nat)) (k : Nat),
      (shortCommitted f k cs).length = shortWritten f k cs := by
  intro cs
  induction cs with
  | nil => intro k; simp [shortCommitted, shortWritten]
  | cons c cs ih =>
    intro k
    simp only [shortCommitted, shortWritten, List.length_append, List.length_take]
    have := hf k c.length
    rw [ih (k + 1)]
    omega

theorem chunkSizesZ_zero (C : Nat) : chunkSizesZ C 0 = [] := by
  unfold chunkSizesZ
  simp

theorem chunkSizesZ_pos_eq (C rem : Nat) (hC : C ≠ 0) (hrem : rem ≠ 0) :
    chunkSizesZ C rem = min C rem :: chunkSizesZ C (rem - C) := by
  conv_lhs => unfold chunkSizesZ
  simp [hC, hrem]

theorem chunkSizesZ_eq_nil_iff (C rem : Nat) :
    chunkSizesZ C rem = [] ↔ C = 0 ∨ rem = 0 := by
  constructor
  · intro h
    by_cases hC : C = 0
    · exact Or.inl hC
    · by_cases hrem : rem = 0
      · exact Or.inr hrem
      · rw [chunkSizesZ_pos_eq C rem hC hrem] at h
        exact absurd h (by simp)
  · intro h
    rcases h with h | h
    · subst h; unfold chunkSizesZ; simp
    · subst h; exact chunkSizesZ_zero C

theorem chunkSizesZ_sum (C : Nat) (hC : 0 < C) :
    ∀ rem, (chunkSizesZ C rem).sum = rem := by
  intro rem
  induction rem using Nat.strong_induction_on with
  | _ rem ih =>
    by_cases hrem : rem = 0
    · subst hrem; simp [chunkSizesZ_zero]
    · rw [chunkSizesZ_pos_eq C rem (by omega) hrem]
      simp only [List.sum_cons]
      rw [ih (rem - C) (by omega)]
      omega

theorem chunkSizesZ_mem_pos (C : Nat) (hC : 0 < C) :
    ∀ rem, ∀ n ∈ chunkSizesZ C rem, 0 < n := by
  intro rem
  induction rem using Nat.strong_induction_on with
  | _ rem ih =>
    intro n hn
    by_cases hrem : rem = 0
    · subst hrem; simp [chunkSizesZ_zero] at hn
    · rw [chunkSizesZ_pos_eq C rem (by omega) hrem] at hn
      rcases List.mem_cons.mp hn with h | h
      · subst h; omega
      · exact ih (rem - C) (by omega) n h

theorem chunkSizesZ_getLast (C : Nat) (hC : 0 < C) :
    ∀ rem, 0 < rem →
      (chunkSizesZ C rem).getLast? =
        some (if rem % C = 0 then C else rem % C) := by
  intro rem
  induction rem using Nat.strong_induction_on with
  | _ rem ih =>
    intro hrem
    rw [chunkSizesZ_pos_eq C rem (by omega) (by omega)]
    by_cases hle : rem ≤ C
    · have h0 : rem - C = 0 := by omega
      rw [h0, chunkSizesZ_zero]
      simp only [List.getLast?_singleton]
      by_cases heq : rem = C
      · subst heq
        simp [Nat.mod_self]
      · have hmod : rem % C = rem := Nat.mod_eq_of_lt (by omega)
        rw [hmod, if_neg (by omega), min_eq_right hle]
    · have hne : chunkSizesZ C (rem - C) ≠ [] := by
        rw [Ne, chunkSizesZ_eq_nil_iff]
        push_neg
        omega
      obtain ⟨m, ms, hms⟩ := List.exists_cons_of_ne_nil hne
      rw [hms, List.getLast?_cons_cons, ← hms]
      rw [ih (rem - C) (by omega) (by omega)]
      have hmod : rem % C = (rem - C) % C := by
        conv_lhs => rw [show rem = (rem - C) + C by omega]
        exact Nat.add_mod_right (rem - C) C
      rw [hmod]

theorem zfProgress_snd (size : Nat) :
    ∀ (ns : List Nat) (w : Nat) (p : Nat × Nat),
      p ∈ zfProgress size w ns → p.2 = size := by
  intro ns
  induction ns with
  | nil => intro w p hp; simp [zfProgress] at hp
  | cons n ns ih =>
    intro w p hp
    rcases List.mem_cons.mp hp with h | h
    · subst h; rfl
    · exact ih (w + n) p h

theorem zfProgress_fst_bounds (size : Nat) :
    ∀ (ns : List Nat) (w : Nat) (p : Nat × Nat),
      p ∈ zfProgress size w ns → w ≤ p.1 ∧ p.1 ≤ w + ns.sum := by
  intro ns
  induction ns with
  | nil => intro w p hp; simp [zfProgress] at hp
  | cons n ns ih =>
    intro w p hp
    simp only [List.sum_cons]
    rcases List.mem_cons.mp hp with h | h
    · subst h; simp
    · have := ih (w + n) p h
      omega

theorem zfProgress_fst_pos (size : Nat) :
    ∀ (ns : List Nat) (w : Nat), (∀ n ∈ ns, 0 < n) →
      ∀ p ∈ zfProgress size w ns, w < p.1 := by
  intro ns
  induction ns with
  | nil => intro w _ p hp; simp [zfProgress] at hp
  | cons n ns ih =>
    intro w hpos p hp
    have hn : 0 < n := hpos n (List.mem_cons_self n ns)
    rcases List.mem_cons.mp hp with h | h
    · subst h; simp; omega
    · have := ih (w + n) (fun m hm => hpos m (List.mem_cons_of_mem n hm)) p h
      omega

theorem zfProgress_chain (size : Nat) :
    ∀ (ns : List Nat) (w : Nat),
      List.Chain' (fun a b => a.1 ≤ b.1) (zfProgress size w ns) := by
  intro ns
  induction ns with
  | nil => intro w; simp [zfProgress]
  | cons n ns ih =>
    intro w
    simp only [zfProgress]
    rw [List.chain'_cons']
    refine ⟨?_, ih (w + n)⟩
    intro b hb
    exact (zfProgress_fst_bounds size ns (w + n) b (List.mem_of_mem_head? hb)).1

theorem zfProgress_getLast (size : Nat) :
    ∀ (ns : List Nat) (w : Nat), ns ≠ [] →
      (zfProgress size w ns).getLast? = some (w + ns.sum, size) := by
  intro ns
  induction ns with
  | nil => intro w h; exact absurd rfl h
  | cons n ns ih =>
    intro w _
    cases ns with
    | nil => simp [zfProgress]
    | cons m ms =>
      have h1 := ih (w + n) (by simp)
      simp only [zfProgress] at h1 ⊢
      rw [List.getLast?_cons_cons, h1]
      simp [Nat.add_assoc]

theorem zfProgress_length (size : Nat) :
    ∀ (ns : List Nat) (w : Nat), (zfProgress size w ns).length = ns.length := by
  intro ns
  induction ns with
  | nil => intro w; simp [zfProgress]
  | cons n ns ih => intro w; simp [zfProgress, ih (w + n)]

/-- Closed form of the zero-fill loop when cancellation is never requested
and every raw write commits its whole buffer: exactly size - written zero
bytes are committed and the final counter is size. -/
theorem formatLoop_full (C size : Nat) (hC : 0 < C) :
    ∀ (fuel k w : Nat), w ≤ size → size - w < fuel →
      formatLoop neverStop fullWrite C size fuel k w =
        some ⟨List.replicate (size - w) 0,
              zfProgress size w (chunkSizesZ C (size - w)),
              (chunkSizesZ C (size - w)).map Ev.writeEv,
              size, Outcome.ok⟩ := by
  intro fuel
  induction fuel with
  | zero => intro k w _ h; omega
  | succ fuel ih =>
    intro k w hw hfuel
    unfold formatLoop
    by_cases hlt : w < size
    · rw [if_pos hlt, if_neg (by simp [neverStop])]
      dsimp only [fullWrite]
      rw [ih (k + 1) (w + min C (size - w)) (by omega) (by omega)]
      dsimp only
      rw [chunkSizesZ_pos_eq C (size - w) (by omega) (by omega)]
      have harith : size - (w + min C (size - w)) = size - w - C := by omega
      rw [harith]
      have hco : (List.replicate (min C (size - w)) (0 : Nat)).take (min C (size - w)) ++
          List.replicate (size - w - C) (0 : Nat) = List.replicate (size - w) (0 : Nat) := by
        rw [List.take_replicate,
            show min (min C (size - w)) (min C (size - w)) = min C (size - w) by omega,
            ← List.replicate_add]
        congr 1
        omega
      rw [hco]
      simp [zfProgress]
    · rw [if_neg hlt]
      have hw0 : w = size := by omega
      subst hw0
      simp [chunkSizesZ_zero, zfProgress]

/-- Closed form of the zero-fill loop when the stop callback first returns
true at its K-th poll while bytes remain: K full chunks of zeros are
committed and the loop raises the user interrupt. -/
theorem formatLoop_stop (stop : Nat → Bool) (C size : Nat) (hC : 0 < C) :
    ∀ (K fuel k w : Nat),
      (∀ i, i < K → stop (k + i) = false) → stop (k + K) = true →
      w + K * C < size → K < fuel →
      formatLoop stop fullWrite C size fuel k w =
        some ⟨List.replicate (K * C) 0,
              zfProgress size w (List.replicate K C),
              (List.replicate K C).map Ev.writeEv,
              w + K * C, Outcome.interrupted⟩ := by
  intro K
  induction K with
  | zero =>
    intro fuel k w _ htrue hlt hfuel
    rw [Nat.add_zero] at htrue
    cases fuel with
    | zero => omega
    | succ fuel =>
      unfold formatLoop
      rw [if_pos (by omega), if_pos htrue]
      simp [zfProgress]
  | succ K ih =>
    intro fuel k w hfalse htrue hlt hfuel
    cases fuel with
    | zero => omega
    | succ fuel =>
      unfold formatLoop
      rw [if_pos (by
        have hexp : (K + 1) * C = K * C + C := by ring
        omega), if_neg (by
        have h0 := hfalse 0 (by omega)
        rw [Nat.add_zero] at h0
        simp [h0])]
      dsimp only [fullWrite]
      have hexp : (K + 1) * C = K * C + C := by ring
      have hmin : min C (size - w) = C := by omega
      rw [hmin]
      rw [ih fuel (k + 1) (w + C)
        (by intro i hi
            have := hfalse (i + 1) (by omega)
            rwa [show k + (i + 1) = k + 1 + i by omega] at this)
        (by rwa [show k + 1 + K = k + (K + 1) by omega])
        (by omega) (by omega)]
      dsimp only
      have hco : (List.replicate C (0 : Nat)).take C ++ List.replicate (K * C) (0 : Nat) =
          List.replicate ((K + 1) * C) (0 : Nat) := by
        rw [List.take_replicate, show min C C = C by omega, ← List.replicate_add]
        congr 1
        omega
      have hrep : List.replicate (K + 1) C = C :: List.replicate K C :=
        List.replicate_succ C K
      have hwr : w + C + K * C = w + (K + 1) * C := by ring
      rw [hco, hrep, hwr]
      simp [zfProgress]

/-- Every event the zero-fill loop itself produces is a raw write event. -/
theorem formatLoop_events (stop : Nat → Bool) (wr : Nat → Nat → Except Unit Nat)
    (C size : Nat) :
    ∀ (fuel k w : Nat) (r : RunRes),
      formatLoop stop wr C size fuel k w = some r →
      ∀ e ∈ r.events, ∃ n, e = Ev.writeEv n := by
  intro fuel
  induction fuel with
  | zero => intro k w r hr; simp [formatLoop] at hr
  | succ fuel ih =>
    intro k w r hr e he
    unfold formatLoop at hr
    by_cases hlt : w < size
    · rw [if_pos hlt] at hr
      by_cases hstop : stop k = true
      · rw [if_pos hstop] at hr
        cases hr
        simp at he
      · rw [if_neg hstop] at hr
        match hw : wr k (min C (size - w)) with
        | Except.error _ =>
          rw [hw] at hr
          cases hr
          simp at he
        | Except.ok n =>
          rw [hw] at hr
          dsimp only at hr
          match hrec : formatLoop stop wr C size fuel (k + 1) (w + n) with
          | none => rw [hrec] at hr; cases hr
          | some rest =>
            rw [hrec] at hr
            cases hr
            rcases List.mem_cons.mp he with h1 | h1
            · exact ⟨n, h1⟩
            · exact ih (k + 1) (w + n) rest hrec e h1
    · rw [if_neg hlt] at hr
      cases hr
      simp at he

/-! ## Closed forms for the four backend entry points -/

theorem shortEvents_mem (f : Nat → Nat → Nat) :
    ∀ (cs : List (List Nat)) (k : Nat), ∀ e ∈ shortEvents f k cs, ∃ n, e = Ev.writeEv n := by
  intro cs
  induction cs with
  | nil => intro k e he; simp [shortEvents] at he
  | cons c cs ih =>
    intro k e he
    rcases List.mem_cons.mp he with h | h
    · exact ⟨f k c.length, h⟩
    · exact ih (k + 1) e h

/-- The chunk loop under the nominal device: everything is committed. -/
theorem writeChunkLoop_full (C total : Nat) (hC : 0 < C) (rem : List Nat) (k w : Nat) :
    writeChunkLoop neverStop fullWrite C total k w rem =
      ⟨rem,
       shortProgress (fun _ n => n) total k w (chunksOf C rem),
       shortEvents (fun _ n => n) k (chunksOf C rem),
       w + rem.length, Outcome.ok⟩ := by
  have h := writeChunkLoop_noStop (fun _ n => n) C total hC rem.length rem le_rfl k w
  rw [show (fun i n => Except.ok ((fun (_ n : Nat) => n) i n)) = fullWrite from rfl] at h
  rw [h, shortCommitted_full, chunksOf_flatten C hC rem.length rem le_rfl,
      shortWritten_full, chunksOf_sum_length C hC]

theorem write_unix_smooth (image : List Nat) (C total : Nat) (hC : 0 < C) :
    write_unix smoothUnixEnv image C total =
      ⟨image,
       shortProgress (fun _ n => n) total 0 0 (chunksOf C image),
       [Ev.unmountEv, Ev.openEv] ++ shortEvents (fun _ n => n) 0 (chunksOf C image) ++
         [Ev.syncEv, Ev.closeEv],
       image.length, Outcome.ok⟩ := by
  unfold write_unix
  rw [if_neg (by simp [smoothUnixEnv])]
  rw [show smoothUnixEnv.stop = neverStop from rfl,
      show smoothUnixEnv.writeRes = fullWrite from rfl,
      writeChunkLoop_full C total hC image 0 0]
  simp [smoothUnixEnv]

theorem write_windows_smooth (image : List Nat) (C total : Nat) (hC : 0 < C) :
    write_windows smoothWinEnv image C total =
      ⟨image,
       shortProgress (fun _ n => n) total 0 0 (chunksOf C image),
       [Ev.openEv, Ev.lockEv, Ev.dismountEv] ++ shortEvents (fun _ n => n) 0 (chunksOf C image) ++
         [Ev.flushEv, Ev.unlockEv, Ev.closeEv],
       image.length, Outcome.ok⟩ := by
  unfold write_windows
  rw [if_neg (by simp [smoothWinEnv]), if_neg (by simp [smoothWinEnv]),
      if_neg (by simp [smoothWinEnv])]
  rw [show smoothWinEnv.stop = neverStop from rfl,
      show smoothWinEnv.writeRes = fullWrite from rfl,
      writeChunkLoop_full C total hC image 0 0]
  simp [smoothWinEnv, winFlush]

theorem format_unix_smooth (S C : Nat) (hC : 0 < C) :
    format_unix smoothUnixEnv S C (S + 1) =
      some ⟨List.replicate S 0,
            zfProgress S 0 (chunkSizesZ C S),
            [Ev.unmountEv, Ev.openEv] ++ (chunkSizesZ C S).map Ev.writeEv ++
              [Ev.syncEv, Ev.closeEv],
            S, Outcome.ok⟩ := by
  unfold format_unix
  rw [if_neg (by simp [smoothUnixEnv])]
  rw [show smoothUnixEnv.stop = neverStop from rfl,
      show smoothUnixEnv.writeRes = fullWrite from rfl,
      formatLoop_full C S hC (S + 1) 0 0 (by omega) (by omega)]
  simp [smoothUnixEnv]

theorem format_windows_smooth (S C : Nat) (hC : 0 < C) :
    format_windows smoothWinEnv S C (S + 1) =
      some ⟨List.replicate S 0,
            zfProgress S 0 (chunkSizesZ C S),
            [Ev.openEv, Ev.lockEv, Ev.dismountEv] ++ (chunkSizesZ C S).map Ev.writeEv ++
              [Ev.flushEv, Ev.unlockEv, Ev.closeEv],
            S, Outcome.ok⟩ := by
  unfold format_windows
  rw [if_neg (by simp [smoothWinEnv]), if_neg (by simp [smoothWinEnv]),
      if_neg (by simp [smoothWinEnv])]
  rw [show smoothWinEnv.stop = neverStop from rfl,
      show smoothWinEnv.writeRes = fullWrite from rfl,
      formatLoop_full C S hC (S + 1) 0 0 (by omega) (by omega)]
  simp [smoothWinEnv, winFlush]

/-! ## Event-trace facts -/

theorem head_mem_take {a : Ev} (l : List Ev) (i : Nat) (h : 1 ≤ i) :
    a ∈ (a :: l).take i := by
  cases i with
  | zero => omega
  | succ i => simp [List.take_succ_cons]

/-- Facts about a Unix-shaped trace: unmount and open, then only raw write
events, then a teardown holding exactly one close: the unmount precedes every
write, and close happens exactly once. -/
theorem unixShapeFacts (levs tail : List Ev)
    (hall : ∀ e ∈ levs, ∃ n, e = Ev.writeEv n)
    (hclose : tail.count Ev.closeEv = 1) :
    (∀ i w, ([Ev.unmountEv, Ev.openEv] ++ levs ++ tail)[i]? = some (Ev.writeEv w) →
        Ev.unmountEv ∈ (([Ev.unmountEv, Ev.openEv] ++ levs ++ tail).take i)) ∧
    ([Ev.unmountEv, Ev.openEv] ++ levs ++ tail).count Ev.closeEv = 1 := by
  constructor
  · intro i w h
    match i with
    | 0 => simp at h
    | 1 => simp at h
    | Nat.succ i' => exact head_mem_take _ _ (by omega)
  · have hlevs : levs.count Ev.closeEv = 0 := by
      rw [List.count_eq_zero]
      intro hmem
      rcases hall _ hmem with ⟨n, hn⟩
      simp at hn
    simp [List.count_append, List.count_cons, hlevs, hclose]

/-- Facts about a Windows-shaped trace: open, lock and dismount, then only
raw write events, then a teardown holding exactly one unlock and one close:
lock and dismount precede every write, and unlock and close happen exactly
once. -/
theorem winShapeFacts (levs tail : List Ev)
    (hall : ∀ e ∈ levs, ∃ n, e = Ev.writeEv n)
    (hclose : tail.count Ev.closeEv = 1) (hunlock : tail.count Ev.unlockEv = 1) :
    (∀ i w, ([Ev.openEv, Ev.lockEv, Ev.dismountEv] ++ levs ++ tail)[i]? =
          some (Ev.writeEv w) →
        Ev.lockEv ∈ (([Ev.openEv, Ev.lockEv, Ev.dismountEv] ++ levs ++ tail).take i) ∧
        Ev.dismountEv ∈ (([Ev.openEv, Ev.lockEv, Ev.dismountEv] ++ levs ++ tail).take i)) ∧
    ([Ev.openEv, Ev.lockEv, Ev.dismountEv] ++ levs ++ tail).count Ev.closeEv = 1 ∧
    ([Ev.openEv, Ev.lockEv, Ev.dismountEv] ++ levs ++ tail).count Ev.unlockEv = 1 := by
  refine ⟨?_, ?_, ?_⟩
  · intro i w h
    match i with
    | 0 => simp at h
    | 1 => simp at h
    | 2 => simp at h
    | Nat.succ (Nat.succ (Nat.succ i')) =>
      constructor
      · exact List.mem_cons_of_mem _ (head_mem_take _ _ (by omega))
      · exact List.mem_cons_of_mem _ (List.mem_cons_of_mem _ (head_mem_take _ _ (by omega)))
  · have hlevs : levs.count Ev.closeEv = 0 := by
      rw [List.count_eq_zero]
      intro hmem
      rcases hall _ hmem with ⟨n, hn⟩
      simp at hn
    simp [List.count_append, List.count_cons, hlevs, hclose]
  · have hlevs : levs.count Ev.unlockEv = 0 := by
      rw [List.count_eq_zero]
      intro hmem
      rcases hall _ hmem with ⟨n, hn⟩
      simp at hn
    simp [List.count_append, List.count_cons, hlevs, hunlock]

/-- A trace with no raw write events trivially has every write preceded by
anything. -/
theorem noWriteFacts (l : List Ev) (h : ∀ e ∈ l, ∀ n, e ≠ Ev.writeEv n) :
    ∀ (i w : Nat) (P : Prop), l[i]? = some (Ev.writeEv w) → P := by
  intro i w P hi
  exact absurd rfl (h _ (List.getElem?_mem hi) w)

/-! ## Evaluation of human_bytes -/

theorem human_bytes_go_stop (u : String) (rest : List String) (size : ℚ) (n : Nat)
    (h : size < 1024 ∨ rest = []) :
    human_bytes_go (u :: rest) size n =
      (if u = "B" then formatFixed0 size else formatFixed2 size) ++ " " ++ u := by
  simp only [human_bytes_go]
  rw [if_pos h]

theorem human_bytes_go_step (u : String) (rest : List String) (size : ℚ) (n : Nat)
    (h1 : ¬ size < 1024) (h2 : rest ≠ []) :
    human_bytes_go (u :: rest) size n = human_bytes_go rest (size / 1024) n := by
  simp only [human_bytes_go]
  rw [if_neg (not_or.mpr ⟨h1, h2⟩)]

theorem roundHalfEven_of_lt (q : ℚ) (z : ℤ) (h1 : ⌊q⌋ = z) (h2 : q - z < 1 / 2) :
    roundHalfEven q = z := by
  unfold roundHalfEven
  rw [h1, if_pos h2]

theorem roundHalfEven_of_gt (q : ℚ) (z : ℤ) (h1 : ⌊q⌋ = z) (h2 : 1 / 2 < q - z) :
    roundHalfEven q = z + 1 := by
  unfold roundHalfEven
  rw [h1, if_neg (by linarith), if_pos h2]

theorem roundHalfEven_intCast (z : ℤ) : roundHalfEven (z : ℚ) = z :=
  roundHalfEven_of_lt _ z (Int.floor_intCast z) (by norm_num)

theorem roundHalfEven_natCast (n : ℕ) : roundHalfEven (n : ℚ) = n := by
  have h := roundHalfEven_intCast (n : ℤ)
  rwa [Int.cast_natCast] at h

theorem formatFixed0_natCast (n : ℕ) : formatFixed0 (n : ℚ) = toString n := by
  unfold formatFixed0
  rw [roundHalfEven_natCast]
  simp

theorem human_bytes_zero : human_bytes 0 = "0 B" := by
  unfold human_bytes
  rw [human_bytes_go_stop _ _ _ _ (Or.inl (by norm_num))]
  rw [if_pos rfl, formatFixed0_natCast 0]
  rfl

theorem human_bytes_1024 : human_bytes 1024 = "1.00 KB" := by
  unfold human_bytes
  rw [human_bytes_go_step _ _ _ _ (by push_cast; norm_num) (by simp)]
  rw [human_bytes_go_stop _ _ _ _ (Or.inl (by push_cast; norm_num))]
  rw [if_neg (by decide)]
  rw [show ((1024 : ℕ) : ℚ) / 1024 = 1 by push_cast; norm_num]
  unfold formatFixed2
  rw [show (1 : ℚ) * 100 = ((100 : ℤ) : ℚ) by norm_num, roundHalfEven_intCast]
  rfl

theorem human_bytes_1474560 : human_bytes 1474560 = "1.41 MB" := by
  unfold human_bytes
  rw [human_bytes_go_step _ _ _ _ (by push_cast; norm_num) (by simp)]
  rw [human_bytes_go_step _ _ _ _ (by push_cast; norm_num) (by simp)]
  rw [human_bytes_go_stop _ _ _ _ (Or.inl (by push_cast; norm_num))]
  rw [if_neg (by decide)]
  rw [show ((1474560 : ℕ) : ℚ) / 1024 / 1024 = 45 / 32 by push_cast; norm_num]
  unfold formatFixed2
  rw [show (45 : ℚ) / 32 * 100 = 1125 / 8 by norm_num]
  rw [roundHalfEven_of_gt (1125 / 8) 140 (by
        rw [Int.floor_eq_iff]
        norm_num)
      (by norm_num)]
  rfl

theorem human_bytes_claimC9_1024 : human_bytes_claimC9 1024 = "1024 B" := by
  unfold human_bytes_claimC9 claimC9Index
  norm_num
  rfl

theorem cast_div_pow_lt (n i : ℕ) : ((n : ℚ) / 1024 ^ i < 1024) ↔ n < 1024 ^ (i + 1) := by
  rw [div_lt_iff₀ (by positivity)]
  rw [show (1024 : ℚ) * 1024 ^ i = ((1024 ^ (i + 1) : ℕ) : ℚ) by push_cast; ring]
  exact Nat.cast_lt

theorem div_chain1 (n : ℕ) : ((n : ℚ) / 1024) = (n : ℚ) / 1024 ^ 1 := by norm_num

theorem div_chain2 (n : ℕ) : ((n : ℚ) / 1024 / 1024) = (n : ℚ) / 1024 ^ 2 := by
  rw [div_div]; norm_num

theorem div_chain3 (n : ℕ) : ((n : ℚ) / 1024 / 1024 / 1024) = (n : ℚ) / 1024 ^ 3 := by
  rw [div_div, div_div]; norm_num

theorem div_chain4 (n : ℕ) :
    ((n : ℚ) / 1024 / 1024 / 1024 / 1024) = (n : ℚ) / 1024 ^ 4 := by
  rw [div_div, div_div, div_div]; norm_num

/-- human_bytes agrees everywhere with its closed-form description. -/
theorem human_bytes_eq_spec (n : Nat) : human_bytes n = human_bytes_spec n := by
  unfold human_bytes human_bytes_spec
  by_cases h0 : n < 1024
  · rw [human_bytes_go_stop _ _ _ _ (Or.inl (by exact_mod_cast h0))]
    have hi : hbUnitIndex n = 0 := by unfold hbUnitIndex; rw [if_pos h0]
    rw [hi, if_pos rfl, if_pos rfl, formatFixed0_natCast]
    rfl
  · have hq0 : ¬ ((n : ℚ) < 1024) := fun hq => h0 (by exact_mod_cast hq)
    rw [human_bytes_go_step _ _ _ _ hq0 (by simp)]
    by_cases h1 : n < 1024 ^ 2
    · rw [human_bytes_go_stop _ _ _ _
        (Or.inl (by rw [div_chain1]; exact (cast_div_pow_lt n 1).mpr h1))]
      have hi : hbUnitIndex n = 1 := by unfold hbUnitIndex; rw [if_neg h0, if_pos h1]
      rw [hi, if_neg (by decide), if_neg (by decide), div_chain1]
      rfl
    · have hq1 : ¬ ((n : ℚ) / 1024 < 1024) := by
        rw [div_chain1, cast_div_pow_lt]
        exact h1
      rw [human_bytes_go_step _ _ _ _ hq1 (by simp)]
      by_cases h2 : n < 1024 ^ 3
      · rw [human_bytes_go_stop _ _ _ _
          (Or.inl (by rw [div_chain2]; exact (cast_div_pow_lt n 2).mpr h2))]
        have hi : hbUnitIndex n = 2 := by
          unfold hbUnitIndex; rw [if_neg h0, if_neg h1, if_pos h2]
        rw [hi, if_neg (by decide), if_neg (by decide), div_chain2]
        rfl
      · have hq2 : ¬ ((n : ℚ) / 1024 / 1024 < 1024) := by
          rw [div_chain2, cast_div_pow_lt]
          exact h2
        rw [human_bytes_go_step _ _ _ _ hq2 (by simp)]
        by_cases h3 : n < 1024 ^ 4
        · rw [human_bytes_go_stop _ _ _ _
            (Or.inl (by rw [div_chain3]; exact (cast_div_pow_lt n 3).mpr h3))]
          have hi : hbUnitIndex n = 3 := by
            unfold hbUnitIndex; rw [if_neg h0, if_neg h1, if_neg h2, if_pos h3]
          rw [hi, if_neg (by decide), if_neg (by decide), div_chain3]
          rfl
        · have hq3 : ¬ ((n : ℚ) / 1024 / 1024 / 1024 < 1024) := by
            rw [div_chain3, cast_div_pow_lt]
            exact h3
          rw [human_bytes_go_step _ _ _ _ hq3 (by simp)]
          rw [human_bytes_go_stop _ _ _ _ (Or.inr rfl)]
          have hi : hbUnitIndex n = 4 := by
            unfold hbUnitIndex; rw [if_neg h0, if_neg h1, if_neg h2, if_neg h3]
          rw [hi, if_neg (by decide), if_neg (by decide), div_chain4]
          rfl

/-! ## Assembled facts about nominal runs -/

theorem fullProgressFacts (C total : Nat) (hC : 0 < C) (image : List Nat) :
    (∀ p ∈ shortProgress (fun _ n => n) total 0 0 (chunksOf C image),
        0 < p.1 ∧ p.1 ≤ image.length ∧ p.2 = total) ∧
    List.Chain' (fun a b => a.1 ≤ b.1)
      (shortProgress (fun _ n => n) total 0 0 (chunksOf C image)) ∧
    (image ≠ [] →
      (shortProgress (fun _ n => n) total 0 0 (chunksOf C image)).getLast? =
        some (image.length, total)) ∧
    (shortProgress (fun _ n => n) total 0 0 (chunksOf C image)).length =
      (chunksOf C image).length := by
  have hsum : shortWritten (fun _ n => n) 0 (chunksOf C image) = image.length := by
    rw [shortWritten_full]
    exact chunksOf_sum_length C hC image
  refine ⟨?_, shortProgress_chain _ _ _ _ _, ?_, shortProgress_length _ _ _ _ _⟩
  · intro p hp
    refine ⟨?_, ?_, shortProgress_snd _ _ _ _ _ p hp⟩
    · exact shortProgress_fst_pos total (chunksOf C image) 0 0
        (chunksOf_ne_nil C image.length image le_rfl) p hp
    · have h2 := (shortProgress_fst_bounds _ _ _ 0 0 p hp).2
      omega
  · intro hne
    have hchne : chunksOf C image ≠ [] := by
      rw [Ne, chunksOf_eq_nil_iff]
      push_neg
      exact ⟨by omega, hne⟩
    rw [shortProgress_getLast _ _ _ 0 0 hchne, hsum]
    simp

theorem zfProgressFacts (S C : Nat) (hC : 0 < C) :
    (∀ p ∈ zfProgress S 0 (chunkSizesZ C S), 0 < p.1 ∧ p.1 ≤ S ∧ p.2 = S) ∧
    List.Chain' (fun a b => a.1 ≤ b.1) (zfProgress S 0 (chunkSizesZ C S)) ∧
    (0 < S → (zfProgress S 0 (chunkSizesZ C S)).getLast? = some (S, S)) := by
  have hsum := chunkSizesZ_sum C hC S
  refine ⟨?_, zfProgress_chain _ _ _, ?_⟩
  · intro p hp
    refine ⟨zfProgress_fst_pos S _ 0 (chunkSizesZ_mem_pos C hC S) p hp, ?_,
      zfProgress_snd S _ 0 p hp⟩
    have := (zfProgress_fst_bounds S _ 0 p hp).2
    omega
  · intro hS
    have hne : chunkSizesZ C S ≠ [] := by
      rw [Ne, chunkSizesZ_eq_nil_iff]
      push_neg
      omega
    rw [zfProgress_getLast S _ 0 hne, hsum]
    simp

theorem filterMap_evWriteSize_map (l : List Nat) :
    (l.map Ev.writeEv).filterMap evWriteSize = l := by
  induction l with
  | nil => simp
  | cons n l ih => simp [evWriteSize, ih]

/-- A Unix run under a fault-free device with per-chunk commit behaviour f
and no cancellation. -/
theorem write_unix_noStop (f : Nat → Nat → Nat) (image : List Nat) (C total : Nat)
    (hC : 0 < C) :
    write_unix ⟨true, fun i n => Except.ok (f i n), true, neverStop⟩ image C total =
      ⟨shortCommitted f 0 (chunksOf C image),
       shortProgress f total 0 0 (chunksOf C image),
       [Ev.unmountEv, Ev.openEv] ++ shortEvents f 0 (chunksOf C image) ++
         [Ev.syncEv, Ev.closeEv],
       shortWritten f 0 (chunksOf C image),
       Outcome.ok⟩ := by
  unfold write_unix
  rw [if_neg (by simp)]
  dsimp only
  rw [writeChunkLoop_noStop f C total hC image.length image le_rfl 0 0]
  simp

/-- A Windows run under a fault-free device with per-chunk commit behaviour
f and no cancellation. -/
theorem write_windows_noStop (f : Nat → Nat → Nat) (image : List Nat) (C total : Nat)
    (hC : 0 < C) :
    write_windows ⟨true, true, true, fun i n => Except.ok (f i n), none, neverStop⟩
        image C total =
      ⟨shortCommitted f 0 (chunksOf C image),
       shortProgress f total 0 0 (chunksOf C image),
       [Ev.openEv, Ev.lockEv, Ev.dismountEv] ++ shortEvents f 0 (chunksOf C image) ++
         [Ev.flushEv, Ev.unlockEv, Ev.closeEv],
       shortWritten f 0 (chunksOf C image),
       Outcome.ok⟩ := by
  unfold write_windows
  rw [if_neg (by simp), if_neg (by simp), if_neg (by simp)]
  dsimp only
  rw [writeChunkLoop_noStop f C total hC image.length image le_rfl 0 0]
  simp [winFlush]

/-- A Unix write run cancelled at the K-th stop poll. -/
theorem write_unix_stopped (stop : Nat → Bool) (K : Nat) (image : List Nat)
    (C total : Nat) (hC : 0 < C)
    (hfalse : ∀ i, i < K → stop i = false) (htrue : stop K = true)
    (hK : K ≤ (chunksOf C image).length) :
    write_unix ⟨true, fullWrite, true, stop⟩ image C total =
      ⟨image.take (K * C),
       shortProgress (fun _ n => n) total 0 0 ((chunksOf C image).take K),
       [Ev.unmountEv, Ev.openEv] ++
         shortEvents (fun _ n => n) 0 ((chunksOf C image).take K) ++ [Ev.closeEv],
       (image.take (K * C)).length,
       Outcome.interrupted⟩ := by
  unfold write_unix
  rw [if_neg (by simp)]
  dsimp only
  rw [writeChunkLoop_stop stop C total hC K image 0 0
    (by intro i hi; simpa using hfalse i hi) (by simpa using htrue) hK]
  simp

/-- A Windows write run cancelled at the K-th stop poll. -/
theorem write_windows_stopped (stop : Nat → Bool) (K : Nat) (image : List Nat)
    (C total : Nat) (hC : 0 < C)
    (hfalse : ∀ i, i < K → stop i = false) (htrue : stop K = true)
    (hK : K ≤ (chunksOf C image).length) :
    write_windows ⟨true, true, true, fullWrite, none, stop⟩ image C total =
      ⟨image.take (K * C),
       shortProgress (fun _ n => n) total 0 0 ((chunksOf C image).take K),
       [Ev.openEv, Ev.lockEv, Ev.dismountEv] ++
         shortEvents (fun _ n => n) 0 ((chunksOf C image).take K) ++
         [Ev.unlockEv, Ev.closeEv],
       (image.take (K * C)).length,
       Outcome.interrupted⟩ := by
  unfold write_windows
  rw [if_neg (by simp), if_neg (by simp), if_neg (by simp)]
  dsimp only
  rw [writeChunkLoop_stop stop C total hC K image 0 0
    (by intro i hi; simpa using hfalse i hi) (by simpa using htrue) hK]
  simp

/-- A Unix zero-fill run cancelled at the K-th stop poll. -/
theorem format_unix_stopped (stop : Nat → Bool) (K S C : Nat) (hC : 0 < C)
    (hfalse : ∀ i, i < K → stop i = false) (htrue : stop K = true)
    (hlt : K * C < S) :
    format_unix ⟨true, fullWrite, true, stop⟩ S C (S + 1) =
      some ⟨List.replicate (K * C) 0,
            zfProgress S 0 (List.replicate K C),
            [Ev.unmountEv, Ev.openEv] ++ (List.replicate K C).map Ev.writeEv ++
              [Ev.closeEv],
            K * C, Outcome.interrupted⟩ := by
  unfold format_unix
  rw [if_neg (by simp)]
  dsimp only
  have hKfuel : K < S + 1 := by
    have := Nat.le_mul_of_pos_right K hC
    omega
  rw [formatLoop_stop stop C S hC K (S + 1) 0 0
    (by intro i hi; simpa using hfalse i hi) (by simpa using htrue) (by omega) hKfuel]
  simp

/-- A Windows zero-fill run cancelled at the K-th stop poll. -/
theorem format_windows_stopped (stop : Nat → Bool) (K S C : Nat) (hC : 0 < C)
    (hfalse : ∀ i, i < K → stop i = false) (htrue : stop K = true)
    (hlt : K * C < S) :
    format_windows ⟨true, true, true, fullWrite, none, stop⟩ S C (S + 1) =
      some ⟨List.replicate (K * C) 0,
            zfProgress S 0 (List.replicate K C),
            [Ev.openEv, Ev.lockEv, Ev.dismountEv] ++
              (List.replicate K C).map Ev.writeEv ++ [Ev.unlockEv, Ev.closeEv],
            K * C, Outcome.interrupted⟩ := by
  unfold format_windows
  rw [if_neg (by simp), if_neg (by simp), if_neg (by simp)]
  dsimp only
  have hKfuel : K < S + 1 := by
    have := Nat.le_mul_of_pos_right K hC
    omega
  rw [formatLoop_stop stop C S hC K (S + 1) 0 0
    (by intro i hi; simpa using hfalse i hi) (by simpa using htrue) (by omega) hKfuel]
  simp

/-! ## Acquisition-before-write and single-release, on every exit path -/

theorem write_unix_props (env : UnixEnv) (image : List Nat) (C total : Nat)
    (hopen : env.openOk = true) :
    (∀ i w, (write_unix env image C total).events[i]? = some (Ev.writeEv w) →
        Ev.unmountEv ∈ (write_unix env image C total).events.take i) ∧
    (write_unix env image C total).events.count Ev.closeEv = 1 := by
  have hall := writeChunkLoop_events env.stop env.writeRes C total image.length image
    le_rfl 0 0
  unfold write_unix
  rw [if_neg (by simp [hopen])]
  dsimp only
  cases ho : (writeChunkLoop env.stop env.writeRes C total 0 0 image).outcome <;>
    dsimp only
  case ok =>
    cases hs : env.syncOk
    · rw [if_neg (by simp [hs])]
      exact unixShapeFacts _ _ hall (by simp)
    · rw [if_pos (by simp [hs])]
      exact unixShapeFacts _ _ hall (by simp)
  all_goals exact unixShapeFacts _ _ hall (by simp)

theorem format_unix_props (env : UnixEnv) (S C fuel : Nat) (r : RunRes)
    (hopen : env.openOk = true) (hr : format_unix env S C fuel = some r) :
    (∀ i w, r.events[i]? = some (Ev.writeEv w) → Ev.unmountEv ∈ r.events.take i) ∧
    r.events.count Ev.closeEv = 1 := by
  unfold format_unix at hr
  rw [if_neg (by simp [hopen])] at hr
  cases hloop : formatLoop env.stop env.writeRes C S fuel 0 0 with
  | none => rw [hloop] at hr; cases hr
  | some r1 =>
    rw [hloop] at hr
    have hall := formatLoop_events env.stop env.writeRes C S fuel 0 0 r1 hloop
    dsimp only at hr
    cases ho : r1.outcome <;> rw [ho] at hr <;> dsimp only at hr
    case ok =>
      cases hs : env.syncOk
      · rw [if_neg (by simp [hs])] at hr
        rw [Option.some_inj] at hr
        subst hr
        exact unixShapeFacts _ _ hall (by simp)
      · rw [if_pos (by simp [hs])] at hr
        rw [Option.some_inj] at hr
        subst hr
        exact unixShapeFacts _ _ hall (by simp)
    all_goals rw [Option.some_inj] at hr
    all_goals subst hr
    all_goals exact unixShapeFacts _ _ hall (by simp)

theorem write_windows_props (env : WinEnv) (image : List Nat) (C total : Nat)
    (hopen : env.openOk = true) :
    (∀ i w, (write_windows env image C total).events[i]? = some (Ev.writeEv w) →
        Ev.lockEv ∈ (write_windows env image C total).events.take i ∧
        Ev.dismountEv ∈ (write_windows env image C total).events.take i) ∧
    (write_windows env image C total).events.count Ev.closeEv = 1 ∧
    (write_windows env image C total).events.count Ev.unlockEv = 1 := by
  have hall := writeChunkLoop_events env.stop env.writeRes C total image.length image
    le_rfl 0 0
  unfold write_windows
  rw [if_neg (by simp [hopen])]
  by_cases hlock : env.lockOk = true
  · rw [if_neg (by simp [hlock])]
    by_cases hdis : env.dismountOk = true
    · rw [if_neg (by simp [hdis])]
      dsimp only
      cases ho : (writeChunkLoop env.stop env.writeRes C total 0 0 image).outcome <;>
        dsimp only
      · cases hfl : winFlush env.flushRes <;> dsimp only
        · exact winShapeFacts _ _ hall (by simp) (by simp)
        · exact winShapeFacts _ _ hall (by simp) (by simp)
      all_goals exact winShapeFacts _ _ hall (by simp) (by simp)
    · rw [if_pos (by simp [hdis])]
      refine ⟨?_, by simp, by simp⟩
      intro i w h
      refine absurd rfl (?_ : Ev.writeEv w ≠ Ev.writeEv w)
      have hmem := List.getElem?_mem h
      simp at hmem
  · rw [if_pos (by simp [hlock])]
    refine ⟨?_, by simp, by simp⟩
    intro i w h
    refine absurd rfl (?_ : Ev.writeEv w ≠ Ev.writeEv w)
    have hmem := List.getElem?_mem h
    simp at hmem

theorem format_windows_props (env : WinEnv) (S C fuel : Nat) (r : RunRes)
    (hopen : env.openOk = true) (hr : format_windows env S C fuel = some r) :
    (∀ i w, r.events[i]? = some (Ev.writeEv w) →
        Ev.lockEv ∈ r.events.take i ∧ Ev.dismountEv ∈ r.events.take i) ∧
    r.events.count Ev.closeEv = 1 ∧
    r.events.count Ev.unlockEv = 1 := by
  unfold format_windows at hr
  rw [if_neg (by simp [hopen])] at hr
  by_cases hlock : env.lockOk = true
  · rw [if_neg (by simp [hlock])] at hr
    by_cases hdis : env.dismountOk = true
    · rw [if_neg (by simp [hdis])] at hr
      cases hloop : formatLoop env.stop env.writeRes C S fuel 0 0 with
      | none => rw [hloop] at hr; cases hr
      | some r1 =>
        rw [hloop] at hr
        have hall := formatLoop_events env.stop env.writeRes C S fuel 0 0 r1 hloop
        dsimp only at hr
        cases ho : r1.outcome <;> rw [ho] at hr <;> dsimp only at hr
        · cases hfl : winFlush env.flushRes <;> rw [hfl] at hr <;> dsimp only at hr
          · rw [Option.some_inj] at hr
            subst hr
            exact winShapeFacts _ _ hall (by simp) (by simp)
          · rw [Option.some_inj] at hr
            subst hr
            exact winShapeFacts _ _ hall (by simp) (by simp)
        all_goals rw [Option.some_inj] at hr
        all_goals subst hr
        all_goals exact winShapeFacts _ _ hall (by simp) (by simp)
    · rw [if_pos (by simp [hdis]), Option.some_inj] at hr
      subst hr
      refine ⟨?_, by simp, by simp⟩
      intro i w h
      refine absurd rfl (?_ : Ev.writeEv w ≠ Ev.writeEv w)
      have hmem := List.getElem?_mem h
      simp at hmem
  · rw [if_pos (by simp [hlock]), Option.some_inj] at hr
    subst hr
    refine ⟨?_, by simp, by simp⟩
    intro i w h
    refine absurd rfl (?_ : Ev.writeEv w ≠ Ev.writeEv w)
    have hmem := List.getElem?_mem h
    simp at hmem

theorem platform_name_cases (s : String) :
    platform_name s = "windows" ∨ platform_name s = "linux" ∨
    platform_name s = "macos" := by
  unfold platform_name
  split_ifs <;> simp

/-! ## The claims -/

theorem macScanList_ok_of_dicts :
    ∀ items : List Plist, (∀ d ∈ items, ∃ es, d = Plist.dict es) →
      ∃ o, macScanList items = Except.ok o := by
  intro items
  induction items with
  | nil => intro _; exact ⟨none, rfl⟩
  | cons d rest ih =>
    intro h
    rcases h d (List.mem_cons_self d rest) with ⟨es, hd⟩
    subst hd
    unfold macScanList
    rw [show macDiskStep (Plist.dict es) = Except.ok (macEntryDevice es) from rfl]
    cases hdev : macEntryDevice es with
    | none =>
      dsimp only
      exact ih (fun x hx => h x (List.mem_cons_of_mem _ hx))
    | some dev =>
      dsimp only
      exact ⟨some dev, rfl⟩

theorem macScanList_none_of_dicts :
    ∀ items : List Plist,
      (∀ d ∈ items, ∃ es, d = Plist.dict es ∧ macEntryDevice es = none) →
      macScanList items = Except.ok none := by
  intro items
  induction items with
  | nil => intro _; rfl
  | cons d rest ih =>
    intro h
    rcases h d (List.mem_cons_self d rest) with ⟨es, hd, hnone⟩
    subst hd
    unfold macScanList
    rw [show macDiskStep (Plist.dict es) = Except.ok (macEntryDevice es) from rfl,
        hnone]
    exact ih (fun x hx => h x (List.mem_cons_of_mem _ hx))

/-- C5 counterexample: a diskutil invocation and plist parse that succeed
but return an array at the root (any shape other than a dictionary) make
the data.get that runs after the except clause raise an uncaught
AttributeError: the macOS scan propagates an exception instead of
returning the not-found result, so discovery is not raise-free on every
unexpected output. -/
theorem C5_counterexample :
    mac_find_floppy_sized_disk (Except.ok (Plist.array [])) =
      Except.error PyExn.attributeError ∧
    mac_find_floppy_sized_disk (Except.ok (Plist.array [])) ≠
      Except.ok none := by
  refine ⟨rfl, fun h => ?_⟩
  rw [show mac_find_floppy_sized_disk (Except.ok (Plist.array [])) =
      Except.error PyExn.attributeError from rfl] at h
  exact Except.noConfusion h

/-- C5 amended: discovery is raise-free only up to each try block. The
Linux scan never raises: a failing lsblk invocation and any output without
a matching parsable line yield the not-found result.  The macOS scan
yields not-found when the diskutil invocation or the plist parse fails,
and never raises when the parsed plist has the shape diskutil produces (a
dictionary root whose AllDisksAndPartitions value, when present, is an
array of dictionaries), returning not-found when no entry matches; a
successfully parsed plist of any other shape raises an uncaught
AttributeError or TypeError after the except clause. -/
theorem C5_discovery_best_effort (cmd : Except PyExn String)
    (parsed : Except PyExn Plist) :
    (∃ o, linux_find_floppy_sized_block_device cmd = Except.ok o) ∧
    (∀ e, cmd = Except.error e →
      linux_find_floppy_sized_block_device cmd = Except.ok none) ∧
    (∀ out, cmd = Except.ok out →
      (∀ ln ∈ (((pySplitLines out).map pyStrip).filter (fun l => l ≠ "")).tail,
          linuxLineDevice ln = none) →
      linux_find_floppy_sized_block_device cmd = Except.ok none) ∧
    (∀ e, parsed = Except.error e →
      mac_find_floppy_sized_disk parsed = Except.ok none) ∧
    (∀ root, parsed = Except.ok (Plist.dict root) →
      (∀ v, root.lookup "AllDisksAndPartitions" = some v →
        ∃ items, v = Plist.array items ∧ ∀ d ∈ items, ∃ es, d = Plist.dict es) →
      ∃ o, mac_find_floppy_sized_disk parsed = Except.ok o) ∧
    (∀ root items, parsed = Except.ok (Plist.dict root) →
      root.lookup "AllDisksAndPartitions" = some (Plist.array items) →
      (∀ d ∈ items, ∃ es, d = Plist.dict es ∧ macEntryDevice es = none) →
      mac_find_floppy_sized_disk parsed = Except.ok none) := by
  refine ⟨?_, ?_, ?_, ?_, ?_, ?_⟩
  · cases cmd with
    | error e => exact ⟨none, rfl⟩
    | ok out =>
      unfold linux_find_floppy_sized_block_device
      dsimp only
      by_cases h :
          (((pySplitLines out).map pyStrip).filter (fun l => l ≠ "")).length < 2
      · exact ⟨none, if_pos h⟩
      · exact ⟨_, if_neg h⟩
  · intro e he
    subst he
    rfl
  · intro out he hnone
    subst he
    unfold linux_find_floppy_sized_block_device
    dsimp only
    by_cases h :
        (((pySplitLines out).map pyStrip).filter (fun l => l ≠ "")).length < 2
    · rw [if_pos h]
    · rw [if_neg h]
      rw [List.findSome?_eq_none_iff.mpr hnone]
  · intro e he
    subst he
    rfl
  · intro root he hshape
    subst he
    unfold mac_find_floppy_sized_disk
    dsimp only
    rw [show plistGetDefault (Plist.dict root) "AllDisksAndPartitions"
        (Plist.array []) =
        Except.ok ((root.lookup "AllDisksAndPartitions").getD (Plist.array []))
        from rfl]
    dsimp only
    cases hv : root.lookup "AllDisksAndPartitions" with
    | none => exact ⟨none, rfl⟩
    | some v =>
      rcases hshape v hv with ⟨items, hvv, hdicts⟩
      subst hvv
      exact macScanList_ok_of_dicts items hdicts
  · intro root items he hv hnone
    subst he
    unfold mac_find_floppy_sized_disk
    dsimp only
    rw [show plistGetDefault (Plist.dict root) "AllDisksAndPartitions"
        (Plist.array []) =
        Except.ok ((root.lookup "AllDisksAndPartitions").getD (Plist.array []))
        from rfl]
    dsimp only
    rw [hv]
    exact macScanList_none_of_dicts items hnone

/-- C5 witness: a failing lsblk invocation, an lsblk output whose data line
does not parse to a matching device, a failing diskutil invocation or plist
parse, and a well-shaped parsed plist with one non-matching disk entry all
yield the not-found result without raising. -/
theorem C5_discovery_best_effort_witness :
    linux_find_floppy_sized_block_device (Except.error PyExn.subprocessError) =
      Except.ok none ∧
    linux_find_floppy_sized_block_device
        (Except.ok "NAME SIZE RM TYPE RO\nsda 1000 1 disk 0") = Except.ok none ∧
    mac_find_floppy_sized_disk (Except.error PyExn.plistError) = Except.ok none ∧
    mac_find_floppy_sized_disk
        (Except.ok (Plist.dict [("AllDisksAndPartitions",
          Plist.array [Plist.dict [("DeviceIdentifier", Plist.str "disk9"),
                                   ("Size", Plist.int 1000)]])])) =
      Except.ok none := by
  refine ⟨?_, ?_, ?_, ?_⟩
  · exact (C5_discovery_best_effort (Except.error PyExn.subprocessError)
      (Except.error PyExn.plistError)).2.1 PyExn.subprocessError rfl
  · exact (C5_discovery_best_effort
      (Except.ok "NAME SIZE RM TYPE RO\nsda 1000 1 disk 0")
      (Except.error PyExn.plistError)).2.2.1
      "NAME SIZE RM TYPE RO\nsda 1000 1 disk 0" rfl (by decide)
  · exact (C5_discovery_best_effort (Except.error PyExn.subprocessError)
      (Except.error PyExn.plistError)).2.2.2.1 PyExn.plistError rfl
  · exact (C5_discovery_best_effort (Except.error PyExn.subprocessError)
      (Except.ok (Plist.dict [("AllDisksAndPartitions",
        Plist.array [Plist.dict [("DeviceIdentifier", Plist.str "disk9"),
                                 ("Size", Plist.int 1000)]])]))).2.2.2.2.2
      [("AllDisksAndPartitions",
        Plist.array [Plist.dict [("DeviceIdentifier", Plist.str "disk9"),
                                 ("Size", Plist.int 1000)]])]
      [Plist.dict [("DeviceIdentifier", Plist.str "disk9"),
                   ("Size", Plist.int 1000)]]
      rfl rfl
      (by intro d hd
          simp at hd
          subst hd
          exact ⟨[("DeviceIdentifier", Plist.str "disk9"),
                  ("Size", Plist.int 1000)], rfl, by decide⟩)

/-- C6: the Windows flush step succeeds when FlushFileBuffers succeeds and
when it fails with WinError 1, and raises an error carrying the failing
code exactly when FlushFileBuffers fails with a code other than 1. -/
theorem C6_flush_error_filter :
    winFlush none = Except.ok () ∧ winFlush (some 1) = Except.ok () ∧
    (∀ e : Nat, winFlush (some e) = Except.error e ↔ e ≠ 1) := by
  refine ⟨rfl, rfl, ?_⟩
  intro e
  constructor
  · intro h he
    subst he
    simp [winFlush] at h
  · intro he
    unfold winFlush
    dsimp only
    rw [if_neg he]

/-- C7 counterexample: on the platform string freebsd, which is none of
Windows, Linux and macOS, resolve_device_path with no devices available
fails with the Linux device-not-found error, not with the unsupported-
platform error the claim requires. -/
theorem C7_counterexample :
    platform_name "freebsd" = "linux" ∧
    resolve_device_path otherPlatformEnv "A" =
      Except.error ResolveErr.deviceNotFoundLinux ∧
    resolve_device_path otherPlatformEnv "A" ≠
      Except.error ResolveErr.unsupportedPlatform := by
  have h1 : resolve_device_path otherPlatformEnv "A" =
      Except.error ResolveErr.deviceNotFoundLinux := by rfl
  refine ⟨rfl, h1, ?_⟩
  rw [h1]
  simp

/-- C7 amended: resolve_device_path never fails with the unsupported-
platform error, because platform_name reports every platform other than
Windows and macOS as linux; the unsupported-platform branch is
unreachable. -/
theorem C7_no_unsupported_platform (env : ResolveEnv) (d : String) :
    resolve_device_path env d ≠ Except.error ResolveErr.unsupportedPlatform ∧
    (platform_name env.sys_platform = "windows" ∨
     platform_name env.sys_platform = "linux" ∨
     platform_name env.sys_platform = "macos") := by
  refine ⟨?_, platform_name_cases env.sys_platform⟩
  unfold resolve_device_path
  dsimp only
  rcases platform_name_cases env.sys_platform with h | h | h <;> rw [h]
  · rw [if_pos rfl]
    simp
  · rw [if_neg (by decide), if_pos rfl]
    split
    · simp
    · split <;> simp
  · rw [if_neg (by decide), if_neg (by decide), if_pos rfl]
    split <;> simp

/-- C8: the three documented sample values of human_bytes. -/
theorem C8_human_bytes_examples :
    human_bytes 0 = "0 B" ∧ human_bytes 1024 = "1.00 KB" ∧
    human_bytes 1474560 = "1.41 MB" :=
  ⟨human_bytes_zero, human_bytes_1024, human_bytes_1474560⟩

/-- C9 counterexample: at input 1024 the code prints two decimals (1.00 KB),
while the claim, read literally (stop at the last unit whose scaled value
still exceeds 1, one decimal above bytes), would print 1024 B; with one
decimal the KB rendering would be 1.0 KB, so the claim misdescribes
human_bytes. -/
theorem C9_counterexample :
    human_bytes 1024 = "1.00 KB" ∧ human_bytes_claimC9 1024 = "1024 B" ∧
    human_bytes 1024 ≠ human_bytes_claimC9 1024 := by
  refine ⟨human_bytes_1024, human_bytes_claimC9_1024, ?_⟩
  rw [human_bytes_1024, human_bytes_claimC9_1024]
  decide

/-- C9 amended: for every nonnegative input, human_bytes divides by 1024
across the units B, KB, MB, GB, TB, stops at the first unit whose scaled
value is below 1024 (TB at the latest), and formats with two decimals of
precision for every unit above bytes and zero decimals for bytes. -/
theorem C9_human_bytes_closed_form (n : Nat) : human_bytes n = human_bytes_spec n :=
  human_bytes_eq_spec n

/-- C1: for every nonempty source image of length L and every positive chunk
size C, on both backends under the nominal device with no cancellation,
write_image calls progress_cb once per chunk, every call reports total = L
and a positive written counter bounded by L, the written counters are
non-decreasing across calls, and the final call reports written = L =
total. -/
theorem C1_write_image_progress (image : List Nat) (C : Nat) (hC : 0 < C) :
    (∀ p ∈ (write_unix smoothUnixEnv image C image.length).progress,
        0 < p.1 ∧ p.1 ≤ image.length ∧ p.2 = image.length) ∧
    List.Chain' (fun a b => a.1 ≤ b.1)
      (write_unix smoothUnixEnv image C image.length).progress ∧
    (image ≠ [] →
      (write_unix smoothUnixEnv image C image.length).progress.getLast? =
        some (image.length, image.length)) ∧
    (write_unix smoothUnixEnv image C image.length).progress.length =
      (chunksOf C image).length ∧
    (∀ p ∈ (write_windows smoothWinEnv image C image.length).progress,
        0 < p.1 ∧ p.1 ≤ image.length ∧ p.2 = image.length) ∧
    List.Chain' (fun a b => a.1 ≤ b.1)
      (write_windows smoothWinEnv image C image.length).progress ∧
    (image ≠ [] →
      (write_windows smoothWinEnv image C image.length).progress.getLast? =
        some (image.length, image.length)) ∧
    (write_windows smoothWinEnv image C image.length).progress.length =
      (chunksOf C image).length := by
  have hu := write_unix_smooth image C image.length hC
  have hw := write_windows_smooth image C image.length hC
  have hf := fullProgressFacts C image.length hC image
  rw [hu, hw]
  exact ⟨hf.1, hf.2.1, hf.2.2.1, hf.2.2.2,
         hf.1, hf.2.1, hf.2.2.1, hf.2.2.2⟩

theorem C1_write_image_progress_witness :
    0 < 2 ∧
    (write_unix smoothUnixEnv [7, 8, 9] 2
        ([7, 8, 9] : List Nat).length).progress.getLast? = some (3, 3) ∧
    (write_windows smoothWinEnv [7, 8, 9] 2
        ([7, 8, 9] : List Nat).length).progress.getLast? = some (3, 3) := by
  have h := C1_write_image_progress [7, 8, 9] 2 (by decide)
  exact ⟨by decide, h.2.2.1 (by decide), h.2.2.2.2.2.2.1 (by decide)⟩

/-- C2: for every size S and positive chunk size C, on both backends under
the nominal device, format_zero_fill commits exactly S bytes, all zero, the
written counter ends at exactly S and never exceeds it on any progress
call, and the last zero buffer issued has S mod C bytes when C does not
divide S and C bytes otherwise (when at least one buffer is issued). -/
theorem C2_format_zero_fill (S C : Nat) (hC : 0 < C) :
    (∃ r, format_unix smoothUnixEnv S C (S + 1) = some r ∧
      r.committed = List.replicate S 0 ∧
      r.written = S ∧ r.outcome = Outcome.ok ∧
      (∀ p ∈ r.progress, 0 < p.1 ∧ p.1 ≤ S ∧ p.2 = S) ∧
      (0 < S → r.progress.getLast? = some (S, S)) ∧
      (S % C ≠ 0 → (r.events.filterMap evWriteSize).getLast? = some (S % C)) ∧
      (S % C = 0 → 0 < S →
        (r.events.filterMap evWriteSize).getLast? = some C)) ∧
    (∃ r, format_windows smoothWinEnv S C (S + 1) = some r ∧
      r.committed = List.replicate S 0 ∧
      r.written = S ∧ r.outcome = Outcome.ok ∧
      (∀ p ∈ r.progress, 0 < p.1 ∧ p.1 ≤ S ∧ p.2 = S) ∧
      (0 < S → r.progress.getLast? = some (S, S)) ∧
      (S % C ≠ 0 → (r.events.filterMap evWriteSize).getLast? = some (S % C)) ∧
      (S % C = 0 → 0 < S →
        (r.events.filterMap evWriteSize).getLast? = some C)) := by
  have hzf := zfProgressFacts S C hC
  have hlast := chunkSizesZ_getLast C hC S
  have hevU : (([Ev.unmountEv, Ev.openEv] ++ (chunkSizesZ C S).map Ev.writeEv ++
      [Ev.syncEv, Ev.closeEv]).filterMap evWriteSize) = chunkSizesZ C S := by
    rw [List.filterMap_append, List.filterMap_append, filterMap_evWriteSize_map,
        show ([Ev.unmountEv, Ev.openEv].filterMap evWriteSize) = [] from rfl,
        show ([Ev.syncEv, Ev.closeEv].filterMap evWriteSize) = [] from rfl]
    simp
  have hevW : (([Ev.openEv, Ev.lockEv, Ev.dismountEv] ++
      (chunkSizesZ C S).map Ev.writeEv ++
      [Ev.flushEv, Ev.unlockEv, Ev.closeEv]).filterMap evWriteSize) =
      chunkSizesZ C S := by
    rw [List.filterMap_append, List.filterMap_append, filterMap_evWriteSize_map,
        show ([Ev.openEv, Ev.lockEv, Ev.dismountEv].filterMap evWriteSize) = []
          from rfl,
        show ([Ev.flushEv, Ev.unlockEv, Ev.closeEv].filterMap evWriteSize) = []
          from rfl]
    simp
  constructor
  · refine ⟨_, format_unix_smooth S C hC, rfl, rfl, rfl, hzf.1, hzf.2.2, ?_, ?_⟩
    · intro hmod
      have hS : 0 < S := by
        rcases Nat.eq_zero_or_pos S with h | h
        · subst h
          simp at hmod
        · exact h
      rw [hevU, hlast hS, if_neg hmod]
    · intro hmod hS
      rw [hevU, hlast hS, if_pos hmod]
  · refine ⟨_, format_windows_smooth S C hC, rfl, rfl, rfl, hzf.1, hzf.2.2, ?_, ?_⟩
    · intro hmod
      have hS : 0 < S := by
        rcases Nat.eq_zero_or_pos S with h | h
        · subst h
          simp at hmod
        · exact h
      rw [hevW, hlast hS, if_neg hmod]
    · intro hmod hS
      rw [hevW, hlast hS, if_pos hmod]

theorem C2_format_zero_fill_witness :
    0 < 2 ∧
    (∃ r, format_unix smoothUnixEnv 5 2 6 = some r ∧
      r.committed = List.replicate 5 0) ∧
    (∃ r, format_windows smoothWinEnv 5 2 6 = some r ∧
      r.committed = List.replicate 5 0) := by
  have h := C2_format_zero_fill 5 2 (by decide)
  obtain ⟨r1, he1, hc1, _⟩ := h.1
  obtain ⟨r2, he2, hc2, _⟩ := h.2
  exact ⟨by decide, ⟨r1, he1, hc1⟩, ⟨r2, he2, hc2⟩⟩

/-- C3: when the stop callback first returns true at its K-th poll, every
backend run commits exactly the bytes of the K chunks already written (none
when K = 0), fails with the user-interrupted outcome, and still executes
its teardown (the close, and on Windows also the unlock, still happen). -/
theorem C3_user_interrupt (stop : Nat → Bool) (K : Nat) (image : List Nat)
    (S C : Nat) (hC : 0 < C)
    (hfalse : ∀ i, i < K → stop i = false) (htrue : stop K = true)
    (hKw : K ≤ (chunksOf C image).length) (hKf : K * C < S) :
    ((write_unix ⟨true, fullWrite, true, stop⟩ image C image.length).committed =
        image.take (K * C) ∧
      (write_unix ⟨true, fullWrite, true, stop⟩ image C image.length).outcome =
        Outcome.interrupted ∧
      (write_unix ⟨true, fullWrite, true, stop⟩
          image C image.length).events.count Ev.closeEv = 1) ∧
    ((write_windows ⟨true, true, true, fullWrite, none, stop⟩
          image C image.length).committed = image.take (K * C) ∧
      (write_windows ⟨true, true, true, fullWrite, none, stop⟩
          image C image.length).outcome = Outcome.interrupted ∧
      (write_windows ⟨true, true, true, fullWrite, none, stop⟩
          image C image.length).events.count Ev.closeEv = 1 ∧
      (write_windows ⟨true, true, true, fullWrite, none, stop⟩
          image C image.length).events.count Ev.unlockEv = 1) ∧
    (∃ r, format_unix ⟨true, fullWrite, true, stop⟩ S C (S + 1) = some r ∧
      r.committed = List.replicate (K * C) 0 ∧
      r.outcome = Outcome.interrupted ∧ r.events.count Ev.closeEv = 1) ∧
    (∃ r, format_windows ⟨true, true, true, fullWrite, none, stop⟩ S C (S + 1) =
        some r ∧
      r.committed = List.replicate (K * C) 0 ∧
      r.outcome = Outcome.interrupted ∧ r.events.count Ev.closeEv = 1 ∧
      r.events.count Ev.unlockEv = 1) := by
  have hmemZ : ∀ e ∈ (List.replicate K C).map Ev.writeEv, ∃ n, e = Ev.writeEv n := by
    intro e he
    rcases List.mem_map.mp he with ⟨n, _, hn⟩
    exact ⟨n, hn.symm⟩
  refine ⟨?_, ?_, ?_, ?_⟩
  · rw [write_unix_stopped stop K image C image.length hC hfalse htrue hKw]
    exact ⟨rfl, rfl,
      (unixShapeFacts _ _ (shortEvents_mem _ _ _) (by simp)).2⟩
  · rw [write_windows_stopped stop K image C image.length hC hfalse htrue hKw]
    exact ⟨rfl, rfl,
      (winShapeFacts _ _ (shortEvents_mem _ _ _) (by simp) (by simp)).2.1,
      (winShapeFacts _ _ (shortEvents_mem _ _ _) (by simp) (by simp)).2.2⟩
  · rw [format_unix_stopped stop K S C hC hfalse htrue hKf]
    exact ⟨_, rfl, rfl, rfl, (unixShapeFacts _ _ hmemZ (by simp)).2⟩
  · rw [format_windows_stopped stop K S C hC hfalse htrue hKf]
    exact ⟨_, rfl, rfl, rfl,
      (winShapeFacts _ _ hmemZ (by simp) (by simp)).2.1,
      (winShapeFacts _ _ hmemZ (by simp) (by simp)).2.2⟩

theorem C3_user_interrupt_witness :
    ((∀ i, i < 1 → (fun i => decide (1 ≤ i)) i = false) ∧
      (fun i => decide (1 ≤ i)) 1 = true ∧ 0 < 2 ∧ 1 * 2 < 5) ∧
    (write_unix ⟨true, fullWrite, true, fun i => decide (1 ≤ i)⟩ [1, 2, 3] 2
        ([1, 2, 3] : List Nat).length).committed = [1, 2] ∧
    (write_unix ⟨true, fullWrite, true, fun i => decide (1 ≤ i)⟩ [1, 2, 3] 2
        ([1, 2, 3] : List Nat).length).outcome = Outcome.interrupted ∧
    (∃ r, format_unix ⟨true, fullWrite, true, fun i => decide (1 ≤ i)⟩ 5 2 6 =
        some r ∧ r.committed = List.replicate 2 0) := by
  have h := C3_user_interrupt (fun i => decide (1 ≤ i)) 1 [1, 2, 3] 5 2
    (by decide) (by decide) (by decide) (by simp [chunksOf]) (by decide)
  obtain ⟨r, he, hc, _⟩ := h.2.2.1
  exact ⟨⟨by decide, by decide, by decide, by decide⟩, h.1.1, h.1.2.1,
    ⟨r, he, hc⟩⟩

/-- C4: in every execution of any backend entry point in which the device
was opened, the volume acquisition (unmount on Unix; lock and dismount on
Windows) appears in the event trace strictly before every raw write event,
and the device release happens exactly once on every exit path: close is in
the trace exactly once, and on Windows the unlock attempt as well. -/
theorem C4_acquire_before_write_release_once (uenv : UnixEnv) (wenv : WinEnv)
    (image : List Nat) (C total S fuel : Nat)
    (hu : uenv.openOk = true) (hw : wenv.openOk = true) :
    ((∀ i w, (write_unix uenv image C total).events[i]? = some (Ev.writeEv w) →
        Ev.unmountEv ∈ (write_unix uenv image C total).events.take i) ∧
      (write_unix uenv image C total).events.count Ev.closeEv = 1) ∧
    (∀ r ∈ format_unix uenv S C fuel,
      (∀ i w, r.events[i]? = some (Ev.writeEv w) →
        Ev.unmountEv ∈ r.events.take i) ∧
      r.events.count Ev.closeEv = 1) ∧
    ((∀ i w, (write_windows wenv image C total).events[i]? =
          some (Ev.writeEv w) →
        Ev.lockEv ∈ (write_windows wenv image C total).events.take i ∧
        Ev.dismountEv ∈ (write_windows wenv image C total).events.take i) ∧
      (write_windows wenv image C total).events.count Ev.closeEv = 1 ∧
      (write_windows wenv image C total).events.count Ev.unlockEv = 1) ∧
    (∀ r ∈ format_windows wenv S C fuel,
      (∀ i w, r.events[i]? = some (Ev.writeEv w) →
        Ev.lockEv ∈ r.events.take i ∧ Ev.dismountEv ∈ r.events.take i) ∧
      r.events.count Ev.closeEv = 1 ∧ r.events.count Ev.unlockEv = 1) := by
  refine ⟨write_unix_props uenv image C total hu, ?_,
    write_windows_props wenv image C total hw, ?_⟩
  · intro r hr
    exact format_unix_props uenv S C fuel r hu (Option.mem_def.mp hr)
  · intro r hr
    exact format_windows_props wenv S C fuel r hw (Option.mem_def.mp hr)

theorem C4_acquire_before_write_release_once_witness :
    smoothUnixEnv.openOk = true ∧ smoothWinEnv.openOk = true ∧
    (write_unix smoothUnixEnv [1] 1 1).events.count Ev.closeEv = 1 ∧
    (write_windows smoothWinEnv [1] 1 1).events.count Ev.closeEv = 1 ∧
    (write_windows smoothWinEnv [1] 1 1).events.count Ev.unlockEv = 1 := by
  have h := C4_acquire_before_write_release_once smoothUnixEnv smoothWinEnv
    [1] 1 1 1 2 (by decide) (by decide)
  exact ⟨by decide, by decide, h.1.2, h.2.2.1.2.1, h.2.2.1.2.2⟩

/-- C10: when the device commits fewer bytes than some issued chunk and no
error or cancellation occurs, the remainder of that chunk is never
re-issued: both backends still process one chunk per read, complete with
the ok outcome, and accumulate exactly the per-chunk committed counts, so
the final written count is strictly below the image length. -/
theorem C10_short_write_semantics (image : List Nat) (C : Nat)
    (f : Nat → Nat → Nat) (hC : 0 < C) (hle : ∀ i n, f i n ≤ n)
    (hshort : ∃ j c, (chunksOf C image)[j]? = some c ∧ f j c.length < c.length) :
    ((write_unix ⟨true, fun i n => Except.ok (f i n), true, neverStop⟩ image C
        image.length).outcome = Outcome.ok ∧
      (write_unix ⟨true, fun i n => Except.ok (f i n), true, neverStop⟩ image C
        image.length).committed = shortCommitted f 0 (chunksOf C image) ∧
      (write_unix ⟨true, fun i n => Except.ok (f i n), true, neverStop⟩ image C
        image.length).written = shortWritten f 0 (chunksOf C image) ∧
      (write_unix ⟨true, fun i n => Except.ok (f i n), true, neverStop⟩ image C
        image.length).written < image.length ∧
      (write_unix ⟨true, fun i n => Except.ok (f i n), true, neverStop⟩ image C
        image.length).progress.length = (chunksOf C image).length) ∧
    ((write_windows ⟨true, true, true, fun i n => Except.ok (f i n), none,
        neverStop⟩ image C image.length).outcome = Outcome.ok ∧
      (write_windows ⟨true, true, true, fun i n => Except.ok (f i n), none,
        neverStop⟩ image C image.length).committed =
        shortCommitted f 0 (chunksOf C image) ∧
      (write_windows ⟨true, true, true, fun i n => Except.ok (f i n), none,
        neverStop⟩ image C image.length).written =
        shortWritten f 0 (chunksOf C image) ∧
      (write_windows ⟨true, true, true, fun i n => Except.ok (f i n), none,
        neverStop⟩ image C image.length).written < image.length ∧
      (write_windows ⟨true, true, true, fun i n => Except.ok (f i n), none,
        neverStop⟩ image C image.length).progress.length =
        (chunksOf C image).length) := by
  have hu := write_unix_noStop f image C image.length hC
  have hw := write_windows_noStop f image C image.length hC
  have hlt : shortWritten f 0 (chunksOf C image) < image.length := by
    have hs : ∃ j c, (chunksOf C image)[j]? = some c ∧
        f (0 + j) c.length < c.length := by
      rcases hshort with ⟨j, c, h1, h2⟩
      exact ⟨j, c, h1, by simpa using h2⟩
    have h := shortWritten_lt f hle (chunksOf C image) 0 hs
    rwa [chunksOf_sum_length C hC] at h
  rw [hu, hw]
  exact ⟨⟨rfl, rfl, rfl, hlt, shortProgress_length _ _ _ _ _⟩,
         ⟨rfl, rfl, rfl, hlt, shortProgress_length _ _ _ _ _⟩⟩

theorem C10_short_write_semantics_witness :
    (∀ i n, (fun (_ n : Nat) => n - 1) i n ≤ n) ∧
    (write_unix ⟨true, fun _ n => Except.ok (n - 1), true, neverStop⟩ [5, 6, 7] 2
        ([5, 6, 7] : List Nat).length).written < 3 ∧
    (write_unix ⟨true, fun _ n => Except.ok (n - 1), true, neverStop⟩ [5, 6, 7] 2
        ([5, 6, 7] : List Nat).length).outcome = Outcome.ok := by
  have h := C10_short_write_semantics [5, 6, 7] 2 (fun _ n => n - 1) (by decide)
    (fun _ n => Nat.sub_le n 1) ⟨0, [5, 6], by simp [chunksOf], by decide⟩
  exact ⟨fun _ n => Nat.sub_le n 1, h.1.2.2.2.1, h.1.1⟩

end FloppyForge
